import Mathlib

/-!
# Label generation (`internal/label`)

A shallow embedding of `internal/label/labeler.go` and `internal/label/types.go`.

Conventions of the embedding:

* Go `string` is `String`; `len(s)` is the number of UTF-8 bytes (`goLen`), and
  `len([]rune(s))` is the number of code points (`runeLen`).
* Go `int` is `Int`; list lengths are cast to `Int` where the source compares them
  with `maxLabels`.
* `float64` scores are taken as exact rationals.
* A Go map is an association list with pairwise different keys (`FreqMap`).  The
  order in which `range` visits a map and the placement of equal-score entries by
  `sort.Slice` are not fixed by the language; they are supplied by a `Runtime`.
* The helpers `cleanText`, `isChineseText`, `splitWords`, `normalizeLabel`,
  `validateLabel` live in a file that is not part of the analysed sources, so they
  are parameters (`Helpers`), as is the library function `strings.ToLower`.
  Where a property depends on what `splitWords` and `normalizeLabel` return, they
  are taken from the specification (`specHelpers`).
-/

namespace Label

/-! ## types.go -/

/-- LabelResult contains the generated labels and the too-short flag. -/
structure LabelResult where
  Labels : List String
  IsTooShort : Bool
deriving DecidableEq, Repr

/-- MinContentLength: minimum content length required for label generation. -/
def MinContentLength : Int := 50

/-- MaxLabels: the maximum number of labels to generate. -/
def MaxLabels : Int := 5

/-- MinLabelLength: the minimum length for a label. -/
def MinLabelLength : Nat := 2

/-- MaxLabelLength: the maximum length for a label. -/
def MaxLabelLength : Nat := 30

/-! ## Strings, maps and the environment -/

/-- Go `len(s)` on a string: the number of bytes of its UTF-8 encoding. -/
def goLen (s : String) : Nat := s.utf8ByteSize

/-- Go `len([]rune(s))`: the number of code points. -/
def runeLen (s : String) : Nat := s.length

/-- Helpers called by labeler.go whose bodies are outside the analysed files. -/
structure Helpers where
  cleanText : String → String
  isChineseText : String → Bool
  splitWords : String → Bool → List String
  normalizeLabel : String → String
  validateLabel : String → Bool
  toLower : String → String

/-- A `map[string]int`, as the list of its entries. -/
abbrev FreqMap := List (String × Nat)

/-- The statement `m[w]++`: bump the entry of `w`, creating it at 1 when absent. -/
def bump : FreqMap → String → FreqMap
  | [], w => [(w, 1)]
  | (k, n) :: rest, w => if k = w then (k, n + 1) :: rest else (k, n) :: bump rest w

/-- The counting loop `for _, w := range words { m[w]++ }` from an empty map. -/
def countFreq (words : List String) : FreqMap := words.foldl bump []

/-- Entry of the slice `scored` in extractEnglishLabels. -/
structure scoredWord where
  word : String
  score : ℚ
deriving DecidableEq, Repr

/-- Entry of the slice `scored` in extractChineseLabels. -/
structure scoredNGram where
  ngram : String
  score : ℚ
deriving DecidableEq, Repr

/-- What the Go runtime and library leave open: the order in which `range` visits
each of the two maps, and the outcome of each of the two `sort.Slice` calls. -/
structure Runtime where
  rangeWordFreq : FreqMap → FreqMap
  rangeNGramFreq : FreqMap → FreqMap
  sortWords : List scoredWord → List scoredWord
  sortNGrams : List scoredNGram → List scoredNGram

/-- A runtime behaves as the language promises: `range` visits every entry of the
map exactly once, and `sort.Slice` with `less(i, j) = score[i] > score[j]` returns a
rearrangement in which no later entry is `less` than an earlier one. -/
structure Runtime.Lawful (rt : Runtime) : Prop where
  rangeWordFreq_perm : ∀ m, (rt.rangeWordFreq m).Perm m
  rangeNGramFreq_perm : ∀ m, (rt.rangeNGramFreq m).Perm m
  sortWords_perm : ∀ l, (rt.sortWords l).Perm l
  sortNGrams_perm : ∀ l, (rt.sortNGrams l).Perm l
  sortWords_sorted : ∀ l, (rt.sortWords l).Pairwise (fun a b => ¬ b.score > a.score)
  sortNGrams_sorted : ∀ l, (rt.sortNGrams l).Pairwise (fun a b => ¬ b.score > a.score)

/-! ## labeler.go: the Latin pipeline -/

/-- Body of the scoring loop of extractEnglishLabels (lines 82-90). -/
def englishScore (freq : Nat) (totalWords : ℚ) : ℚ :=
  let tf := (freq : ℚ) / totalWords
  let score := tf
  if freq ≥ 2 ∧ freq ≤ 10 then score * 1.5 else score

/-- The scoring loop of extractEnglishLabels over the visited map entries. -/
def scoreWords (totalWords : ℚ) (entries : FreqMap) : List scoredWord :=
  entries.map fun e => { word := e.1, score := englishScore e.2 totalWords }

/-- The loop `for i := 0; i < len(scored) && len(labels) < maxLabels; i++`. -/
def topWords (maxLabels : Int) : List scoredWord → List String → List String
  | [], labels => labels
  | s :: rest, labels =>
    if (labels.length : Int) < maxLabels then topWords maxLabels rest (labels ++ [s.word])
    else labels

/-- The slice `scored` of extractEnglishLabels after `sort.Slice`. -/
def rankedWords (rt : Runtime) (words : List String) : List scoredWord :=
  let wordFreq := countFreq words
  let totalWords : ℚ := (words.length : ℚ)
  rt.sortWords (scoreWords totalWords (rt.rangeWordFreq wordFreq))

/-- The part of extractEnglishLabels after tokenisation (lines 67-106). -/
def englishLabelsOf (rt : Runtime) (words : List String) (maxLabels : Int) : List String :=
  topWords maxLabels (rankedWords rt words) []

/-- extractEnglishLabels extracts labels from English text using word frequency. -/
def extractEnglishLabels (H : Helpers) (rt : Runtime) (text : String) (maxLabels : Int) :
    List String :=
  let words := H.splitWords (H.toLower text) false
  englishLabelsOf rt words maxLabels

/-! ## labeler.go: the CJK pipeline -/

/-- Body of the scoring loop of extractChineseLabels (lines 128-141). -/
def chineseScore (ngram : String) (freq : Nat) (totalNGrams : ℚ) : ℚ :=
  let lengthBoost : ℚ := if runeLen ngram = 3 then 1.5 else 1.0
  let tf := (freq : ℚ) / totalNGrams
  let score := tf * lengthBoost
  if freq ≥ 2 ∧ freq ≤ 8 then score * 1.5 else score

/-- The scoring loop of extractChineseLabels over the visited map entries. -/
def scoreNGrams (totalNGrams : ℚ) (entries : FreqMap) : List scoredNGram :=
  entries.map fun e => { ngram := e.1, score := chineseScore e.1 e.2 totalNGrams }

/-- Outcome of the first selection loop: it either executed `return labels` or ran
to its end, leaving `labels` and `seen` for the second loop. -/
inductive Flow where
  | returned (labels : List String)
  | fellThrough (labels : List String) (seen : List String)
deriving DecidableEq, Repr

/-- First selection loop of extractChineseLabels (lines 156-164). -/
def collectTrigrams (maxLabels : Int) : List scoredNGram → List String → List String → Flow
  | [], labels, seen => Flow.fellThrough labels seen
  | item :: rest, labels, seen =>
    if runeLen item.ngram = 3 ∧ ¬ item.ngram ∈ seen then
      if ((labels ++ [item.ngram]).length : Int) ≥ maxLabels then
        Flow.returned (labels ++ [item.ngram])
      else collectTrigrams maxLabels rest (labels ++ [item.ngram]) (item.ngram :: seen)
    else collectTrigrams maxLabels rest labels seen

/-- Second selection loop of extractChineseLabels (lines 167-175). -/
def fillBigrams (maxLabels : Int) : List scoredNGram → List String → List String → List String
  | [], labels, _ => labels
  | item :: rest, labels, seen =>
    if runeLen item.ngram = 2 ∧ ¬ item.ngram ∈ seen then
      if ((labels ++ [item.ngram]).length : Int) ≥ maxLabels then labels ++ [item.ngram]
      else fillBigrams maxLabels rest (labels ++ [item.ngram]) (item.ngram :: seen)
    else fillBigrams maxLabels rest labels seen

/-- The slice `scored` of extractChineseLabels after `sort.Slice`. -/
def rankedNGrams (rt : Runtime) (ngrams : List String) : List scoredNGram :=
  let ngramFreq := countFreq ngrams
  let totalNGrams : ℚ := (ngrams.length : ℚ)
  rt.sortNGrams (scoreNGrams totalNGrams (rt.rangeNGramFreq ngramFreq))

/-- The two selection loops of extractChineseLabels on a sorted slice (lines 151-177). -/
def selectNGrams (maxLabels : Int) (scored : List scoredNGram) : List String :=
  match collectTrigrams maxLabels scored [] [] with
  | Flow.returned labels => labels
  | Flow.fellThrough labels seen => fillBigrams maxLabels scored labels seen

/-- The part of extractChineseLabels after tokenisation (lines 113-177). -/
def chineseLabelsOf (rt : Runtime) (ngrams : List String) (maxLabels : Int) : List String :=
  selectNGrams maxLabels (rankedNGrams rt ngrams)

/-- extractChineseLabels extracts labels from Chinese text using n-gram frequency. -/
def extractChineseLabels (H : Helpers) (rt : Runtime) (text : String) (maxLabels : Int) :
    List String :=
  let ngrams := H.splitWords text true
  chineseLabelsOf rt ngrams maxLabels

/-! ## labeler.go: GenerateLabels -/

/-- The clamp `if maxLabels <= 0 || maxLabels > MaxLabels { maxLabels = MaxLabels }`. -/
def clampMaxLabels (maxLabels : Int) : Int :=
  if maxLabels ≤ 0 ∨ maxLabels > MaxLabels then MaxLabels else maxLabels

/-- The normalise-and-validate loop of GenerateLabels (lines 46-55). -/
def validateLoop (H : Helpers) (maxLabels : Int) : List String → List String → List String
  | [], validLabels => validLabels
  | label :: rest, validLabels =>
    let normalized := H.normalizeLabel label
    let validLabels := if H.validateLabel normalized then validLabels ++ [normalized]
      else validLabels
    if (validLabels.length : Int) ≥ maxLabels then validLabels
    else validateLoop H maxLabels rest validLabels

/-- The candidates handed to the validation loop (lines 34-43), for a cleaned text
and an already clamped `maxLabels`. -/
def candidates (H : Helpers) (rt : Runtime) (cleanedText : String) (maxLabels : Int) :
    List String :=
  let isChinese := H.isChineseText cleanedText
  if isChinese then extractChineseLabels H rt cleanedText maxLabels
  else extractEnglishLabels H rt cleanedText maxLabels

/-- GenerateLabels generates labels from the given text. -/
def GenerateLabels (H : Helpers) (rt : Runtime) (text : String) (maxLabels : Int) :
    LabelResult :=
  let cleanedText := H.cleanText text
  if (goLen cleanedText : Int) < MinContentLength then
    { Labels := [], IsTooShort := true }
  else
    let maxLabels := clampMaxLabels maxLabels
    let labels := candidates H rt cleanedText maxLabels
    let validLabels := validateLoop H maxLabels labels []
    { Labels := validLabels, IsTooShort := false }

/-! ## The ranking the pipelines select from -/

/-- The candidates of the Latin pipeline in ranked order, before the cut at
`maxLabels`: the words of the sorted slice. -/
def englishRanking (rt : Runtime) (words : List String) : List String :=
  (rankedWords rt words).map fun s => s.word

/-- The score that the scoring loop of extractEnglishLabels attaches to the entry of
word `w` when the token list is `words`. -/
def wordScore (words : List String) (w : String) : ℚ :=
  englishScore (words.count w) (words.length : ℚ)

/-- The 3-character n-grams of a sorted slice, in slice order. -/
def trigramsOf (scored : List scoredNGram) : List String :=
  (scored.filter fun s => decide (runeLen s.ngram = 3)).map fun s => s.ngram

/-- The 2-character n-grams of a sorted slice, in slice order. -/
def bigramsOf (scored : List scoredNGram) : List String :=
  (scored.filter fun s => decide (runeLen s.ngram = 2)).map fun s => s.ngram

/-- The candidates of the CJK pipeline in ranked order, before the cut at
`maxLabels`: all trigrams of the sorted slice, then all its bigrams. -/
def chineseRanking (rt : Runtime) (ngrams : List String) : List String :=
  trigramsOf (rankedNGrams rt ngrams) ++ bigramsOf (rankedNGrams rt ngrams)

/-- The ranked candidates of the pipeline that GenerateLabels selects for a cleaned
text, before the cut at `maxLabels`. -/
def fullRanking (H : Helpers) (rt : Runtime) (cleanedText : String) : List String :=
  if H.isChineseText cleanedText then chineseRanking rt (H.splitWords cleanedText true)
  else englishRanking rt (H.splitWords (H.toLower cleanedText) false)

/-- The tokens counted by the pipeline that GenerateLabels selects for a cleaned text. -/
def tokensOf (H : Helpers) (cleanedText : String) : List String :=
  if H.isChineseText cleanedText then H.splitWords cleanedText true
  else H.splitWords (H.toLower cleanedText) false

/-! ## Sample environments

Concrete runtimes and helpers on which the definitions above can be evaluated. -/

/-- A runtime whose `range` visits entries in creation order and whose sort is a
stable insertion sort by descending score. -/
def stableRuntime : Runtime where
  rangeWordFreq := id
  rangeNGramFreq := id
  sortWords := List.insertionSort fun a b => b.score ≤ a.score
  sortNGrams := List.insertionSort fun a b => b.score ≤ a.score

/-- A runtime whose `range` visits entries in reverse creation order. -/
def reversedRuntime : Runtime where
  rangeWordFreq := List.reverse
  rangeNGramFreq := List.reverse
  sortWords := List.insertionSort fun a b => b.score ≤ a.score
  sortNGrams := List.insertionSort fun a b => b.score ≤ a.score

/-- Maximal runs of ASCII letters of a character list (`cur` is the run being read,
reversed). -/
def sampleWords : List Char → List Char → List String
  | [], cur => if cur = [] then [] else [String.mk cur.reverse]
  | c :: cs, cur =>
    if c.isAlpha then sampleWords cs (c :: cur)
    else if cur = [] then sampleWords cs []
    else String.mk cur.reverse :: sampleWords cs []

/-- Every bigram and trigram of adjacent characters, sliding by one. -/
def sampleNGrams : List Char → List String
  | [] => []
  | a :: tail =>
    match tail with
    | b :: c :: _ => String.mk [a, b] :: String.mk [a, b, c] :: sampleNGrams tail
    | [b] => [String.mk [a, b]]
    | [] => []

/-- Sample helpers: no cleaning, CJK when some character lies in U+4E00..U+9FFF,
ASCII lower-casing as normalisation, and the length check 2..30 as validation.
They are one arbitrary choice, used to instantiate statements that hold for every
choice of helpers; they are not the helpers of the specification. -/
def sampleHelpers : Helpers where
  cleanText := id
  isChineseText := fun s => s.data.any fun c => decide (0x4E00 ≤ c.toNat ∧ c.toNat ≤ 0x9FFF)
  splitWords := fun s isChinese =>
    if isChinese then sampleNGrams s.data else sampleWords s.data []
  normalizeLabel := fun s => String.mk (s.data.map Char.toLower)
  validateLabel := fun s => decide (MinLabelLength ≤ runeLen s ∧ runeLen s ≤ MaxLabelLength)
  toLower := fun s => String.mk (s.data.map Char.toLower)

/-- A CJK text of 20 characters and 60 bytes. -/
def cjkTwenty : String := "人工智能技术正在改变世界人工智能技术正在"

/-- A Latin text of 61 bytes in which one word occurs three times. -/
def latinSample : String := "blockchain is here and blockchain is there so blockchain wins"

/-- A Latin text of 74 bytes whose top-ranked word has 34 letters. -/
def longWord : String :=
  "supercalifragilisticexpialidocious supercalifragilisticexpialidocious nice"

/-- A text of 52 bytes without any letter. -/
def noLetters : String := "1234567890 1234567890 1234567890 1234567890 12345678"

/-! ## The CJK pipeline without the length boost

A second version of the CJK scoring, written from the statement that the length
boost is immaterial: `lengthBoost` is 1.0 for every n-gram.  Everything else is the
code of extractChineseLabels. -/

/-- The scoring loop body of extractChineseLabels with `lengthBoost` fixed to 1.0:
the score is tf, times 1.5 when 2 <= freq <= 8. -/
def chineseScoreFlat (freq : Nat) (totalNGrams : ℚ) : ℚ :=
  let lengthBoost : ℚ := 1.0
  let tf := (freq : ℚ) / totalNGrams
  let score := tf * lengthBoost
  if freq ≥ 2 ∧ freq ≤ 8 then score * 1.5 else score

/-- The scoring loop over the visited map entries, without the length boost. -/
def scoreNGramsFlat (totalNGrams : ℚ) (entries : FreqMap) : List scoredNGram :=
  entries.map fun e => { ngram := e.1, score := chineseScoreFlat e.2 totalNGrams }

/-- The sorted slice of the version without the length boost. -/
def rankedNGramsFlat (rt : Runtime) (ngrams : List String) : List scoredNGram :=
  let ngramFreq := countFreq ngrams
  let totalNGrams : ℚ := (ngrams.length : ℚ)
  rt.sortNGrams (scoreNGramsFlat totalNGrams (rt.rangeNGramFreq ngramFreq))

/-- The version of extractChineseLabels without the length boost: same counting,
same sort, same two selection loops. -/
def extractChineseLabelsFlat (H : Helpers) (rt : Runtime) (text : String) (maxLabels : Int) :
    List String :=
  let ngrams := H.splitWords text true
  selectNGrams maxLabels (rankedNGramsFlat rt ngrams)

/-- A stable sort of the slice by descending score: equal scores keep the order
in which the entries were appended. -/
def stableSortNGrams (scored : List scoredNGram) : List scoredNGram :=
  scored.insertionSort fun a b => b.score ≤ a.score

/-- Take the length boost out of a slice entry: the score of a 3-character n-gram
is divided by 1.5, other entries are left as they are. -/
def unboost (s : scoredNGram) : scoredNGram :=
  if runeLen s.ngram = 3 then { ngram := s.ngram, score := s.score / 1.5 } else s

/-- A CJK text in which the bigram "好的" occurs nine times and trigrams up to eight
times. -/
def cjkRepeated : String := "好的好的好的好的好的好的好的好的好的人工智能人工智能技术"

/-- Nineteen tokens: the word "often" eleven times and the word "topic" eight times. -/
def skewedWords : List String := List.replicate 11 "often" ++ List.replicate 8 "topic"

/-- A Latin text whose words are `skewedWords`. -/
def skewedText : String :=
  "often often often often often often often often often often often " ++
    "topic topic topic topic topic topic topic topic"

/-- A text of 11 bytes. -/
def shortNote : String := "Short note."

/-! ## The helpers as the specification describes them

`splitWords`, `normalizeLabel` and `isChineseText` are not among the analysed files.
Where a property depends on what they return, they are taken from the
specification (sections 4.2, 4.3, 4.6 and scenario E). -/

/-- Modelled from the spec: the character classes, the case mapping, the minimum
token length and the stopword list on which the missing helpers rest.  The spec
names them and leaves their values open ("exact stopword list, exact CJK character
range, exact punctuation-splitting rule"), so they are parameters. -/
structure SpecTables where
  isLetter : Char → Bool
  isCJK : Char → Bool
  isSpace : Char → Bool
  lower : Char → Char
  minWordLength : Nat
  stopwords : List String

/-- What every choice of the tables has to satisfy: lower-casing twice is
lower-casing once, a CJK character has no case, and neither a letter nor a CJK
character is whitespace. -/
structure SpecTables.Sound (T : SpecTables) : Prop where
  lower_lower : ∀ c, T.lower (T.lower c) = T.lower c
  lower_cjk : ∀ c, T.isCJK c = true → T.lower c = c
  letter_not_space : ∀ c, T.isLetter c = true → T.isSpace c = false
  cjk_not_space : ∀ c, T.isCJK c = true → T.isSpace c = false

/-- The maximal runs of characters that satisfy `p` (`cur` is the run being read,
reversed). -/
def runsOf (p : Char → Bool) : List Char → List Char → List (List Char)
  | [], cur => if cur = [] then [] else [cur.reverse]
  | c :: cs, cur =>
    if p c then runsOf p cs (c :: cur)
    else if cur = [] then runsOf p cs []
    else cur.reverse :: runsOf p cs []

/-- Remove the characters that satisfy `p` from both ends. -/
def trimOf (p : Char → Bool) (cs : List Char) : List Char :=
  ((cs.dropWhile p).reverse.dropWhile p).reverse

/-- Modelled from the spec: the missing helper `splitWords` (section 4.3).  Latin
mode "lower-cases input, splits on non-letter boundaries, discards tokens shorter
than a minimum length (stopword/very-short-word filtering is part of this step)";
CJK mode, "for each contiguous run of CJK characters, emits every bigram and every
trigram of adjacent characters (sliding window, step 1)". -/
def specSplitWords (T : SpecTables) (text : String) (isChinese : Bool) : List String :=
  if isChinese then (runsOf T.isCJK text.data []).flatMap sampleNGrams
  else
    ((runsOf T.isLetter (text.data.map T.lower) []).map String.mk).filter fun w =>
      decide (T.minWordLength ≤ runeLen w) && !(T.stopwords.contains w)

/-- Modelled from the spec: the missing helper `normalizeLabel` (section 4.6,
"trims whitespace, optionally adjusts casing"; by scenario E the normalised form of
"Data" is "data", so the casing is lower case). -/
def specNormalizeLabel (T : SpecTables) (label : String) : String :=
  String.mk ((trimOf T.isSpace label.data).map T.lower)

/-- Modelled from the spec: the missing helper `isChineseText` (section 4.2): the
characters in the CJK range are more than half of the non-whitespace characters. -/
def specIsChineseText (T : SpecTables) (text : String) : Bool :=
  decide ((text.data.filter fun c => !T.isSpace c).length
    < 2 * (text.data.filter T.isCJK).length)

/-- The library function strings.ToLower with the case mapping of the tables. -/
def specToLower (T : SpecTables) (s : String) : String :=
  String.mk (s.data.map T.lower)

/-- Modelled from the spec: the helper set in which `splitWords`, `normalizeLabel`
and `isChineseText` are as the specification describes them; `cleanText` and
`validateLabel` are those of `H`. -/
def specHelpers (T : SpecTables) (H : Helpers) : Helpers :=
  { H with
    isChineseText := specIsChineseText T
    splitWords := specSplitWords T
    normalizeLabel := specNormalizeLabel T
    toLower := specToLower T }

/-- Sample tables: ASCII letters, the block U+4E00..U+9FFF, ASCII whitespace, ASCII
lower-casing, words of at least three letters, three stopwords. -/
def asciiTables : SpecTables where
  isLetter := fun c =>
    decide ((65 ≤ c.toNat ∧ c.toNat ≤ 90) ∨ (97 ≤ c.toNat ∧ c.toNat ≤ 122))
  isCJK := fun c => decide (0x4E00 ≤ c.toNat ∧ c.toNat ≤ 0x9FFF)
  isSpace := fun c => decide (c.toNat = 32 ∨ (9 ≤ c.toNat ∧ c.toNat ≤ 13))
  lower := fun c => if 65 ≤ c.toNat ∧ c.toNat ≤ 90 then Char.ofNat (c.toNat + 32) else c
  minWordLength := 3
  stopwords := ["the", "and", "for"]

/-- A Latin text of 70 bytes in which "Data" and "data" both occur. -/
def dataText : String :=
  "Data pipelines move data and Data lakes store data for analytics teams"

/-- A text of 22 characters and 50 bytes, 14 of the characters CJK, with "AI" and "ai" between CJK runs. -/
def mixedScript : String := "人工智能AI很好很好ai人工智能AI很好ai"

/-! ## Ties within the ranks that reach the result -/

/-- A list of scores put in descending order. -/
def descending (scores : List ℚ) : List ℚ :=
  scores.insertionSort fun a b => b ≤ a

/-- The scores of the entries of `wordFreq`, in descending order: the score at
rank 1, at rank 2, and so on, of the sorted slice of extractEnglishLabels. -/
def wordScoresDescending (words : List String) : List ℚ :=
  descending ((scoreWords (words.length : ℚ) (countFreq words)).map fun s => s.score)

/-- The scores of the entries of `ngramFreq` whose n-gram has `len` characters, in
descending order: the scores met, in turn, by the selection loop of
extractChineseLabels that collects the n-grams of that length. -/
def ngramScoresDescending (len : Nat) (ngrams : List String) : List ℚ :=
  descending
    (((scoreNGrams (ngrams.length : ℚ) (countFreq ngrams)).filter fun s =>
      decide (runeLen s.ngram = len)).map fun s => s.score)

/-- No tie in score reaches the first `m` ranks of the selected pipeline.
Latin: the scores at ranks 1 to m + 1 of the words are pairwise different.
CJK: the scores at ranks 1 to m + 1 of the trigrams are pairwise different, and so
are the scores at ranks 1 to m + 1 - t of the bigrams, t being the number of
distinct trigrams.  A rank that does not exist imposes nothing. -/
def NoTieInTop (H : Helpers) (cleanedText : String) (m : Nat) : Prop :=
  if H.isChineseText cleanedText = true then
    ((ngramScoresDescending 3 (H.splitWords cleanedText true)).take (m + 1)).Nodup
      ∧ ((ngramScoresDescending 2 (H.splitWords cleanedText true)).take
          (m + 1 - (ngramScoresDescending 3 (H.splitWords cleanedText true)).length)).Nodup
  else
    ((wordScoresDescending (H.splitWords (H.toLower cleanedText) false)).take (m + 1)).Nodup

/-! ## The clamp and the validation loop -/

theorem clampMaxLabels_pos (maxLabels : Int) : 1 ≤ clampMaxLabels maxLabels := by
  unfold clampMaxLabels MaxLabels
  split <;> omega

theorem clampMaxLabels_le (maxLabels : Int) : clampMaxLabels maxLabels ≤ 5 := by
  unfold clampMaxLabels MaxLabels
  split <;> omega

theorem clampMaxLabels_eq (maxLabels : Int) :
    clampMaxLabels maxLabels = if 1 ≤ maxLabels ∧ maxLabels ≤ 5 then maxLabels else 5 := by
  unfold clampMaxLabels MaxLabels
  split <;> split <;> omega

theorem GenerateLabels_of_short (H : Helpers) (rt : Runtime) (text : String) (maxLabels : Int)
    (h : (goLen (H.cleanText text) : Int) < MinContentLength) :
    GenerateLabels H rt text maxLabels = { Labels := [], IsTooShort := true } := by
  simp only [GenerateLabels, if_pos h]

theorem GenerateLabels_of_long (H : Helpers) (rt : Runtime) (text : String) (maxLabels : Int)
    (h : ¬ (goLen (H.cleanText text) : Int) < MinContentLength) :
    GenerateLabels H rt text maxLabels =
      { Labels := validateLoop H (clampMaxLabels maxLabels)
          (candidates H rt (H.cleanText text) (clampMaxLabels maxLabels)) [],
        IsTooShort := false } := by
  simp only [GenerateLabels, if_neg h]

theorem validateLoop_cons_valid (H : Helpers) (maxLabels : Int) (label : String)
    (rest validLabels : List String) (hv : H.validateLabel (H.normalizeLabel label) = true) :
    validateLoop H maxLabels (label :: rest) validLabels =
      if ((validLabels ++ [H.normalizeLabel label]).length : Int) ≥ maxLabels then
        validLabels ++ [H.normalizeLabel label]
      else validateLoop H maxLabels rest (validLabels ++ [H.normalizeLabel label]) := by
  simp only [validateLoop, hv, if_true]

theorem validateLoop_cons_invalid (H : Helpers) (maxLabels : Int) (label : String)
    (rest validLabels : List String) (hv : ¬ H.validateLabel (H.normalizeLabel label) = true) :
    validateLoop H maxLabels (label :: rest) validLabels =
      if (validLabels.length : Int) ≥ maxLabels then validLabels
      else validateLoop H maxLabels rest validLabels := by
  simp only [validateLoop, hv]
  rfl

theorem validateLoop_length_le (H : Helpers) (maxLabels : Int) (labels : List String) :
    ∀ validLabels : List String, (validLabels.length : Int) < maxLabels →
      ((validateLoop H maxLabels labels validLabels).length : Int) ≤ maxLabels := by
  induction labels with
  | nil => intro validLabels h; simpa [validateLoop] using h.le
  | cons label rest ih =>
    intro validLabels h
    by_cases hv : H.validateLabel (H.normalizeLabel label) = true
    · rw [validateLoop_cons_valid H maxLabels label rest validLabels hv]
      by_cases hge : ((validLabels ++ [H.normalizeLabel label]).length : Int) ≥ maxLabels
      · rw [if_pos hge]
        simp only [List.length_append, List.length_singleton, Nat.cast_add, Nat.cast_one]
        omega
      · rw [if_neg hge]
        exact ih _ (by omega)
    · rw [validateLoop_cons_invalid H maxLabels label rest validLabels hv]
      have hge : ¬ (validLabels.length : Int) ≥ maxLabels := by omega
      rw [if_neg hge]
      exact ih _ h

/-! ## C1 -/

/-- C1: for every text, every integer maxLabels and every behaviour of the helpers
and of the runtime, the Labels returned by GenerateLabels have at most m entries,
where m is maxLabels when 1 <= maxLabels <= 5 and 5 otherwise; in particular they
never have more than 5 entries. -/
theorem C1_labels_length_le_cap (H : Helpers) (rt : Runtime) (text : String) (maxLabels : Int) :
    ((GenerateLabels H rt text maxLabels).Labels.length : Int)
        ≤ (if 1 ≤ maxLabels ∧ maxLabels ≤ 5 then maxLabels else 5)
      ∧ (GenerateLabels H rt text maxLabels).Labels.length ≤ 5 := by
  have key : ((GenerateLabels H rt text maxLabels).Labels.length : Int)
      ≤ clampMaxLabels maxLabels := by
    have hpos := clampMaxLabels_pos maxLabels
    by_cases hs : (goLen (H.cleanText text) : Int) < MinContentLength
    · rw [GenerateLabels_of_short H rt text maxLabels hs]
      simp only [List.length_nil, Nat.cast_zero]; omega
    · rw [GenerateLabels_of_long H rt text maxLabels hs]
      exact validateLoop_length_le H _ _ [] (by simp only [List.length_nil, Nat.cast_zero]; omega)
  have hle := clampMaxLabels_le maxLabels
  refine ⟨?_, by omega⟩
  rw [← clampMaxLabels_eq]
  exact key

/-! ## C2 -/

/-- C2 (the code departs from it): a cleaned text of 20 characters, below the
documented minimum of 50 characters, is not reported as too short, because the gate
compares the byte length (60 here) with MinContentLength.  Whatever the other helpers
and the runtime are, when cleaning leaves the text as it is, IsTooShort is false. -/
theorem C2_short_cjk_text_passes_gate (H : Helpers) (rt : Runtime) (maxLabels : Int) :
    runeLen cjkTwenty = 20 ∧ goLen cjkTwenty = 60
      ∧ (GenerateLabels { H with cleanText := fun s => s } rt cjkTwenty maxLabels).IsTooShort
          = false := by
  have hlen : goLen cjkTwenty = 60 := by decide
  refine ⟨by decide, hlen, ?_⟩
  simp [GenerateLabels, hlen, MinContentLength]

/-! ## C3 -/

/-- C3: for every text and every maxLabels with maxLabels <= 0 or maxLabels > 5,
GenerateLabels(text, maxLabels) equals GenerateLabels(text, 5): the same IsTooShort
flag and the same labels in the same order. -/
theorem C3_out_of_range_behaves_as_five (H : Helpers) (rt : Runtime) (text : String)
    (maxLabels : Int) (h : maxLabels ≤ 0 ∨ maxLabels > 5) :
    GenerateLabels H rt text maxLabels = GenerateLabels H rt text 5 := by
  have h1 : clampMaxLabels maxLabels = 5 := by
    unfold clampMaxLabels MaxLabels
    split <;> omega
  have h2 : clampMaxLabels 5 = 5 := by decide
  simp only [GenerateLabels, h1, h2]

/-- C3 at maxLabels = 0 on a Latin sample: the call behaves as with 5 and returns
five labels, not none. -/
theorem C3_witness :
    ((0 : Int) ≤ 0 ∨ (0 : Int) > 5)
      ∧ GenerateLabels sampleHelpers stableRuntime latinSample 0
          = GenerateLabels sampleHelpers stableRuntime latinSample 5
      ∧ (GenerateLabels sampleHelpers stableRuntime latinSample 0).Labels
          = ["blockchain", "is", "here", "and", "there"] :=
  ⟨by decide, C3_out_of_range_behaves_as_five sampleHelpers stableRuntime latinSample 0
    (by decide), by decide!⟩

/-! ## The counting loop -/

theorem keys_bump (m : FreqMap) (w : String) :
    (bump m w).map Prod.fst =
      if w ∈ m.map Prod.fst then m.map Prod.fst else m.map Prod.fst ++ [w] := by
  induction m with
  | nil => simp [bump]
  | cons e rest ih =>
    obtain ⟨k, n⟩ := e
    by_cases hk : k = w
    · simp [bump, hk]
    · have hwk : ¬ w = k := fun h => hk h.symm
      simp only [bump, if_neg hk, List.map_cons, ih, List.mem_cons, hwk, false_or]
      split <;> simp

theorem mem_bump (m : FreqMap) (w k : String) (n : Nat) (hnd : (m.map Prod.fst).Nodup)
    (h : (k, n) ∈ bump m w) :
    (k ≠ w ∧ (k, n) ∈ m) ∨
      (k = w ∧ ((∃ n0, (w, n0) ∈ m ∧ n = n0 + 1) ∨ (w ∉ m.map Prod.fst ∧ n = 1))) := by
  induction m with
  | nil =>
    simp only [bump, List.mem_singleton, Prod.mk.injEq] at h
    exact Or.inr ⟨h.1, Or.inr ⟨by simp, h.2⟩⟩
  | cons e rest ih =>
    obtain ⟨k0, n0⟩ := e
    simp only [List.map_cons, List.nodup_cons] at hnd
    by_cases hk : k0 = w
    · simp only [bump, if_pos hk, List.mem_cons, Prod.mk.injEq] at h
      rcases h with ⟨h1, h2⟩ | h
      · exact Or.inr ⟨h1.trans hk, Or.inl ⟨n0, by simp [hk], h2⟩⟩
      · have hkw : k ≠ w := by
          intro hkw
          apply hnd.1
          rw [hk, ← hkw]
          exact List.mem_map_of_mem Prod.fst h
        exact Or.inl ⟨hkw, by simp [h]⟩
    · simp only [bump, if_neg hk, List.mem_cons, Prod.mk.injEq] at h
      rcases h with ⟨h1, h2⟩ | h
      · exact Or.inl ⟨by rw [h1]; exact hk, by simp [h1, h2]⟩
      · rcases ih hnd.2 h with ⟨a, b⟩ | ⟨a, b⟩
        · exact Or.inl ⟨a, by simp [b]⟩
        · refine Or.inr ⟨a, ?_⟩
          rcases b with ⟨n1, b1, b2⟩ | ⟨b1, b2⟩
          · exact Or.inl ⟨n1, by simp [b1], b2⟩
          · refine Or.inr ⟨?_, b2⟩
            simp only [List.map_cons, List.mem_cons, not_or]
            exact ⟨fun h => hk h.symm, b1⟩

theorem foldl_bump_inv (ws : List String) : ∀ (m : FreqMap) (pre : List String),
    (m.map Prod.fst).Nodup → (∀ k n, (k, n) ∈ m → n = pre.count k) →
    (∀ k, k ∈ m.map Prod.fst ↔ k ∈ pre) →
    ((ws.foldl bump m).map Prod.fst).Nodup
      ∧ (∀ k n, (k, n) ∈ ws.foldl bump m → n = (pre ++ ws).count k)
      ∧ (∀ k, k ∈ (ws.foldl bump m).map Prod.fst ↔ k ∈ pre ++ ws) := by
  induction ws with
  | nil =>
    intro m pre h1 h2 h3
    simp only [List.foldl_nil, List.append_nil]
    exact ⟨h1, h2, h3⟩
  | cons w rest ih =>
    intro m pre h1 h2 h3
    have hstep := ih (bump m w) (pre ++ [w]) ?_ ?_ ?_
    · simpa using hstep
    · rw [keys_bump]
      split
      · exact h1
      · rename_i hw
        exact List.Nodup.append h1 (List.nodup_singleton w) (by simpa using hw)
    · intro k n hkn
      rcases mem_bump m w k n h1 hkn with ⟨a, b⟩ | ⟨a, b⟩
      · rw [h2 k n b]
        simp [List.count_append, a]
      · subst a
        rcases b with ⟨n0, b1, b2⟩ | ⟨b1, b2⟩
        · rw [b2, h2 k n0 b1]
          simp [List.count_append]
        · rw [b2]
          have : k ∉ pre := fun hp => b1 ((h3 k).2 hp)
          simp [List.count_append, List.count_eq_zero_of_not_mem this]
    · intro k
      rw [keys_bump]
      split
      · rename_i hw
        simp only [List.mem_append, List.mem_singleton, ← h3]
        constructor
        · exact Or.inl
        · rintro (h | h)
          · exact h
          · rw [h]; exact hw
      · simp only [List.mem_append, List.mem_singleton, ← h3]

theorem countFreq_keys_nodup (words : List String) :
    ((countFreq words).map Prod.fst).Nodup :=
  (foldl_bump_inv words [] [] List.nodup_nil (by simp) (by simp)).1

theorem countFreq_count (words : List String) (k : String) (n : Nat)
    (h : (k, n) ∈ countFreq words) : n = words.count k := by
  simpa using (foldl_bump_inv words [] [] List.nodup_nil (by simp) (by simp)).2.1 k n h

theorem mem_keys_countFreq (words : List String) (k : String) :
    k ∈ (countFreq words).map Prod.fst ↔ k ∈ words := by
  simpa using (foldl_bump_inv words [] [] List.nodup_nil (by simp) (by simp)).2.2 k

theorem countFreq_keys_perm_dedup (words : List String) :
    ((countFreq words).map Prod.fst).Perm words.dedup :=
  (List.perm_ext_iff_of_nodup (countFreq_keys_nodup words) (List.nodup_dedup words)).2
    (fun k => by rw [mem_keys_countFreq, List.mem_dedup])

theorem countFreq_nil : countFreq [] = [] := rfl

/-! ## The Latin pipeline -/

theorem topWords_eq (maxLabels : Int) : ∀ (l : List scoredWord) (labels : List String),
    topWords maxLabels l labels =
      labels ++ (l.take (maxLabels.toNat - labels.length)).map fun s => s.word := by
  intro l
  induction l with
  | nil => intro labels; simp [topWords]
  | cons s rest ih =>
    intro labels
    by_cases h : (labels.length : Int) < maxLabels
    · have hk : maxLabels.toNat - labels.length = (maxLabels.toNat - (labels.length + 1)) + 1 := by
        omega
      simp only [topWords, if_pos h, ih, List.length_append, List.length_singleton]
      rw [hk]
      simp
    · have hk : maxLabels.toNat - labels.length = 0 := by omega
      simp only [topWords, if_neg h, hk, List.take_zero, List.map_nil, List.append_nil]

theorem englishLabelsOf_eq (rt : Runtime) (words : List String) (maxLabels : Int) :
    englishLabelsOf rt words maxLabels = (englishRanking rt words).take maxLabels.toNat := by
  simp [englishLabelsOf, englishRanking, topWords_eq, List.map_take]

theorem rankedWords_perm (rt : Runtime) (hrt : rt.Lawful) (words : List String) :
    (rankedWords rt words).Perm (scoreWords (words.length : ℚ) (countFreq words)) :=
  (hrt.sortWords_perm _).trans ((hrt.rangeWordFreq_perm _).map _)

theorem englishRanking_perm (rt : Runtime) (hrt : rt.Lawful) (words : List String) :
    (englishRanking rt words).Perm ((countFreq words).map Prod.fst) := by
  have h := (rankedWords_perm rt hrt words).map fun s => s.word
  simpa [englishRanking, scoreWords, Function.comp_def] using h

theorem englishRanking_nodup (rt : Runtime) (hrt : rt.Lawful) (words : List String) :
    (englishRanking rt words).Nodup :=
  (englishRanking_perm rt hrt words).nodup_iff.2 (countFreq_keys_nodup words)

theorem mem_englishRanking (rt : Runtime) (hrt : rt.Lawful) (words : List String) (w : String) :
    w ∈ englishRanking rt words ↔ w ∈ words := by
  rw [(englishRanking_perm rt hrt words).mem_iff, mem_keys_countFreq]

theorem score_of_mem_rankedWords (rt : Runtime) (hrt : rt.Lawful) (words : List String)
    (s : scoredWord) (h : s ∈ rankedWords rt words) :
    s.score = englishScore (words.count s.word) (words.length : ℚ) := by
  have h1 := (rankedWords_perm rt hrt words).mem_iff.1 h
  simp only [scoreWords, List.mem_map] at h1
  obtain ⟨e, he, rfl⟩ := h1
  have := countFreq_count words e.1 e.2 he
  simp only [this]

theorem rankedWords_sorted (rt : Runtime) (hrt : rt.Lawful) (words : List String) :
    (rankedWords rt words).Pairwise (fun a b => b.score ≤ a.score) :=
  (hrt.sortWords_sorted _).imp (fun h => not_lt.1 h)

/-! ## The CJK pipeline -/

theorem trigramsOf_cons (item : scoredNGram) (rest : List scoredNGram) :
    trigramsOf (item :: rest) =
      if runeLen item.ngram = 3 then item.ngram :: trigramsOf rest else trigramsOf rest := by
  by_cases h : runeLen item.ngram = 3 <;> simp [trigramsOf, List.filter_cons, h]

theorem bigramsOf_cons (item : scoredNGram) (rest : List scoredNGram) :
    bigramsOf (item :: rest) =
      if runeLen item.ngram = 2 then item.ngram :: bigramsOf rest else bigramsOf rest := by
  by_cases h : runeLen item.ngram = 2 <;> simp [bigramsOf, List.filter_cons, h]

theorem runeLen_of_mem_trigramsOf (l : List scoredNGram) (x : String) (h : x ∈ trigramsOf l) :
    runeLen x = 3 := by
  simp only [trigramsOf, List.mem_map, List.mem_filter, decide_eq_true_eq] at h
  obtain ⟨s, ⟨_, h3⟩, rfl⟩ := h
  exact h3

theorem runeLen_of_mem_bigramsOf (l : List scoredNGram) (x : String) (h : x ∈ bigramsOf l) :
    runeLen x = 2 := by
  simp only [bigramsOf, List.mem_map, List.mem_filter, decide_eq_true_eq] at h
  obtain ⟨s, ⟨_, h2⟩, rfl⟩ := h
  exact h2

theorem collectTrigrams_cons (maxLabels : Int) (item : scoredNGram) (rest : List scoredNGram)
    (labels seen : List String) :
    collectTrigrams maxLabels (item :: rest) labels seen =
      if runeLen item.ngram = 3 ∧ ¬ item.ngram ∈ seen then
        if ((labels ++ [item.ngram]).length : Int) ≥ maxLabels then
          Flow.returned (labels ++ [item.ngram])
        else collectTrigrams maxLabels rest (labels ++ [item.ngram]) (item.ngram :: seen)
      else collectTrigrams maxLabels rest labels seen := by
  simp only [collectTrigrams]

theorem fillBigrams_cons (maxLabels : Int) (item : scoredNGram) (rest : List scoredNGram)
    (labels seen : List String) :
    fillBigrams maxLabels (item :: rest) labels seen =
      if runeLen item.ngram = 2 ∧ ¬ item.ngram ∈ seen then
        if ((labels ++ [item.ngram]).length : Int) ≥ maxLabels then labels ++ [item.ngram]
        else fillBigrams maxLabels rest (labels ++ [item.ngram]) (item.ngram :: seen)
      else fillBigrams maxLabels rest labels seen := by
  simp only [fillBigrams]

theorem collectTrigrams_eq (k : Nat) : ∀ (l : List scoredNGram) (labels seen : List String),
    (l.map fun s => s.ngram).Nodup → (∀ s ∈ l, s.ngram ∉ seen) → labels.length < k →
    collectTrigrams (k : Int) l labels seen =
      if k ≤ labels.length + (trigramsOf l).length then
        Flow.returned (labels ++ (trigramsOf l).take (k - labels.length))
      else Flow.fellThrough (labels ++ trigramsOf l) ((trigramsOf l).reverse ++ seen) := by
  intro l
  induction l with
  | nil =>
    intro labels seen _ _ hlt
    have : ¬ k ≤ labels.length := by omega
    simp [collectTrigrams, trigramsOf, this]
  | cons item rest ih =>
    intro labels seen hnd hseen hlt
    simp only [List.map_cons, List.nodup_cons] at hnd
    have hns : item.ngram ∉ seen := hseen item (List.mem_cons_self _ _)
    rw [collectTrigrams_cons, trigramsOf_cons]
    by_cases h3 : runeLen item.ngram = 3
    · have hcond : runeLen item.ngram = 3 ∧ ¬ item.ngram ∈ seen := ⟨h3, hns⟩
      rw [if_pos hcond, if_pos h3]
      by_cases hge : ((labels ++ [item.ngram]).length : Int) ≥ (k : Int)
      · have hk : k - labels.length = 1 := by
          simp only [List.length_append, List.length_singleton] at hge
          omega
        have hle : k ≤ labels.length + (item.ngram :: trigramsOf rest).length := by
          simp only [List.length_cons]; omega
        rw [if_pos hge, if_pos hle, hk]
        rfl
      · have hlt2 : (labels ++ [item.ngram]).length < k := by
          simp only [List.length_append, List.length_singleton] at hge ⊢
          omega
        have hseen2 : ∀ s ∈ rest, s.ngram ∉ item.ngram :: seen := by
          intro s hs hmem
          rcases List.mem_cons.1 hmem with heq | hmem
          · exact hnd.1 (heq ▸ List.mem_map_of_mem (fun s => s.ngram) hs)
          · exact hseen s (List.mem_cons_of_mem _ hs) hmem
        have hk : k - labels.length = (k - (labels ++ [item.ngram]).length) + 1 := by
          simp only [List.length_append, List.length_singleton] at hlt2 ⊢
          omega
        rw [if_neg hge, ih _ _ hnd.2 hseen2 hlt2, hk]
        by_cases hle : k ≤ (labels ++ [item.ngram]).length + (trigramsOf rest).length
        · have hle2 : k ≤ labels.length + (item.ngram :: trigramsOf rest).length := by
            simp only [List.length_append, List.length_cons, List.length_nil] at hle ⊢
            omega
          rw [if_pos hle, if_pos hle2]
          simp
        · have hle2 : ¬ k ≤ labels.length + (item.ngram :: trigramsOf rest).length := by
            simp only [List.length_append, List.length_cons, List.length_nil] at hle ⊢
            omega
          rw [if_neg hle, if_neg hle2]
          simp
    · have hcond : ¬ (runeLen item.ngram = 3 ∧ ¬ item.ngram ∈ seen) := fun h => h3 h.1
      rw [if_neg hcond, if_neg h3]
      exact ih _ _ hnd.2 (fun s hs => hseen s (List.mem_cons_of_mem _ hs)) hlt

theorem fillBigrams_eq (k : Nat) : ∀ (l : List scoredNGram) (labels seen : List String),
    (l.map fun s => s.ngram).Nodup → (∀ s ∈ l, runeLen s.ngram = 2 → s.ngram ∉ seen) →
    labels.length < k →
    fillBigrams (k : Int) l labels seen = labels ++ (bigramsOf l).take (k - labels.length) := by
  intro l
  induction l with
  | nil => intro labels seen _ _ _; simp [fillBigrams, bigramsOf]
  | cons item rest ih =>
    intro labels seen hnd hseen hlt
    simp only [List.map_cons, List.nodup_cons] at hnd
    rw [fillBigrams_cons, bigramsOf_cons]
    by_cases h2 : runeLen item.ngram = 2
    · have hcond : runeLen item.ngram = 2 ∧ ¬ item.ngram ∈ seen :=
        ⟨h2, hseen item (List.mem_cons_self _ _) h2⟩
      rw [if_pos hcond, if_pos h2]
      by_cases hge : ((labels ++ [item.ngram]).length : Int) ≥ (k : Int)
      · have hk : k - labels.length = 1 := by
          simp only [List.length_append, List.length_singleton] at hge
          omega
        rw [if_pos hge, hk]
        rfl
      · have hlt2 : (labels ++ [item.ngram]).length < k := by
          simp only [List.length_append, List.length_singleton] at hge ⊢
          omega
        have hseen2 : ∀ s ∈ rest, runeLen s.ngram = 2 → s.ngram ∉ item.ngram :: seen := by
          intro s hs hs2 hmem
          rcases List.mem_cons.1 hmem with heq | hmem
          · exact hnd.1 (heq ▸ List.mem_map_of_mem (fun s => s.ngram) hs)
          · exact hseen s (List.mem_cons_of_mem _ hs) hs2 hmem
        have hk : k - labels.length = (k - (labels ++ [item.ngram]).length) + 1 := by
          simp only [List.length_append, List.length_singleton] at hlt2 ⊢
          omega
        rw [if_neg hge, ih _ _ hnd.2 hseen2 hlt2, hk]
        simp
    · have hcond : ¬ (runeLen item.ngram = 2 ∧ ¬ item.ngram ∈ seen) := fun h => h2 h.1
      rw [if_neg hcond, if_neg h2]
      exact ih _ _ hnd.2 (fun s hs => hseen s (List.mem_cons_of_mem _ hs)) hlt

theorem selectNGrams_eq (k : Nat) (hk : 1 ≤ k) (l : List scoredNGram)
    (hnd : (l.map fun s => s.ngram).Nodup) :
    selectNGrams (k : Int) l = (trigramsOf l ++ bigramsOf l).take k := by
  unfold selectNGrams
  rw [collectTrigrams_eq k l [] [] hnd (by simp) (by simpa using hk)]
  by_cases hle : k ≤ (trigramsOf l).length
  · have hc : k ≤ ([] : List String).length + (trigramsOf l).length := by simpa using hle
    rw [if_pos hc]
    simp [List.take_append_of_le_length hle]
  · have hc : ¬ k ≤ ([] : List String).length + (trigramsOf l).length := by simpa using hle
    have hfill := fillBigrams_eq k l (trigramsOf l) ((trigramsOf l).reverse ++ []) hnd
      (by
        intro s _ hs2 hmem
        have h3 := runeLen_of_mem_trigramsOf l s.ngram (by simpa using hmem)
        omega)
      (by omega)
    have ht : (trigramsOf l).take k = trigramsOf l := List.take_of_length_le (by omega)
    rw [if_neg hc]
    simp only [List.nil_append]
    rw [hfill, List.take_append_eq_append_take, ht]

theorem rankedNGrams_perm (rt : Runtime) (hrt : rt.Lawful) (ngrams : List String) :
    (rankedNGrams rt ngrams).Perm (scoreNGrams (ngrams.length : ℚ) (countFreq ngrams)) :=
  (hrt.sortNGrams_perm _).trans ((hrt.rangeNGramFreq_perm _).map _)

theorem rankedNGrams_keys_perm (rt : Runtime) (hrt : rt.Lawful) (ngrams : List String) :
    ((rankedNGrams rt ngrams).map fun s => s.ngram).Perm ((countFreq ngrams).map Prod.fst) := by
  have h := (rankedNGrams_perm rt hrt ngrams).map fun s => s.ngram
  simpa [scoreNGrams, Function.comp_def] using h

theorem rankedNGrams_keys_nodup (rt : Runtime) (hrt : rt.Lawful) (ngrams : List String) :
    ((rankedNGrams rt ngrams).map fun s => s.ngram).Nodup :=
  (rankedNGrams_keys_perm rt hrt ngrams).nodup_iff.2 (countFreq_keys_nodup ngrams)

theorem rankedNGrams_sorted (rt : Runtime) (hrt : rt.Lawful) (ngrams : List String) :
    (rankedNGrams rt ngrams).Pairwise (fun a b => b.score ≤ a.score) :=
  (hrt.sortNGrams_sorted _).imp (fun h => not_lt.1 h)

theorem trigramsOf_eq_filter (l : List scoredNGram) :
    trigramsOf l = (l.map fun s => s.ngram).filter fun g => decide (runeLen g = 3) := by
  simp [trigramsOf, List.filter_map, Function.comp_def]

theorem bigramsOf_eq_filter (l : List scoredNGram) :
    bigramsOf l = (l.map fun s => s.ngram).filter fun g => decide (runeLen g = 2) := by
  simp [bigramsOf, List.filter_map, Function.comp_def]

theorem trigrams_append_bigrams_nodup (l : List scoredNGram)
    (hnd : (l.map fun s => s.ngram).Nodup) : (trigramsOf l ++ bigramsOf l).Nodup := by
  refine List.Nodup.append ?_ ?_ ?_
  · rw [trigramsOf_eq_filter]; exact hnd.filter _
  · rw [bigramsOf_eq_filter]; exact hnd.filter _
  · intro x h3 h2
    have a := runeLen_of_mem_trigramsOf l x h3
    have b := runeLen_of_mem_bigramsOf l x h2
    omega

theorem chineseRanking_nodup (rt : Runtime) (hrt : rt.Lawful) (ngrams : List String) :
    (chineseRanking rt ngrams).Nodup :=
  trigrams_append_bigrams_nodup _ (rankedNGrams_keys_nodup rt hrt ngrams)

theorem chineseLabelsOf_eq (rt : Runtime) (hrt : rt.Lawful) (ngrams : List String)
    (maxLabels : Int) (hm : 1 ≤ maxLabels) :
    chineseLabelsOf rt ngrams maxLabels = (chineseRanking rt ngrams).take maxLabels.toNat := by
  have hcast : ((maxLabels.toNat : Nat) : Int) = maxLabels := Int.toNat_of_nonneg (by omega)
  have h := selectNGrams_eq maxLabels.toNat (by omega) (rankedNGrams rt ngrams)
    (rankedNGrams_keys_nodup rt hrt ngrams)
  rw [hcast] at h
  exact h

theorem mem_chineseRanking (rt : Runtime) (hrt : rt.Lawful) (ngrams : List String) (g : String) :
    g ∈ chineseRanking rt ngrams ↔ g ∈ ngrams ∧ (runeLen g = 3 ∨ runeLen g = 2) := by
  have hk : ∀ x, x ∈ ((rankedNGrams rt ngrams).map fun s => s.ngram) ↔ x ∈ ngrams := by
    intro x
    rw [(rankedNGrams_keys_perm rt hrt ngrams).mem_iff, mem_keys_countFreq]
  simp only [chineseRanking, List.mem_append, trigramsOf_eq_filter, bigramsOf_eq_filter,
    List.mem_filter, hk, decide_eq_true_eq]
  tauto

/-! ## The candidates and the labels of GenerateLabels -/

theorem candidates_eq_take (H : Helpers) (rt : Runtime) (hrt : rt.Lawful) (cleanedText : String)
    (maxLabels : Int) (hm : 1 ≤ maxLabels) :
    candidates H rt cleanedText maxLabels
      = (fullRanking H rt cleanedText).take maxLabels.toNat := by
  unfold candidates fullRanking
  by_cases hc : H.isChineseText cleanedText = true
  · simp only [hc, if_true, extractChineseLabels]
    exact chineseLabelsOf_eq rt hrt _ maxLabels hm
  · simp only [hc, extractEnglishLabels]
    exact englishLabelsOf_eq rt _ maxLabels

theorem fullRanking_nodup (H : Helpers) (rt : Runtime) (hrt : rt.Lawful) (cleanedText : String) :
    (fullRanking H rt cleanedText).Nodup := by
  unfold fullRanking
  split
  · exact chineseRanking_nodup rt hrt _
  · exact englishRanking_nodup rt hrt _

theorem mem_fullRanking_tokens (H : Helpers) (rt : Runtime) (hrt : rt.Lawful)
    (cleanedText : String) (c : String) (h : c ∈ fullRanking H rt cleanedText) :
    c ∈ tokensOf H cleanedText := by
  unfold fullRanking at h
  unfold tokensOf
  by_cases hc : H.isChineseText cleanedText = true
  · rw [if_pos hc] at h ⊢
    exact ((mem_chineseRanking rt hrt _ c).1 h).1
  · rw [if_neg hc] at h ⊢
    exact (mem_englishRanking rt hrt _ c).1 h

theorem validateLoop_eq_filter (H : Helpers) (maxLabels : Int) (labels : List String) :
    ∀ validLabels : List String,
      (validLabels.length : Int) + (labels.length : Int) ≤ maxLabels →
      validateLoop H maxLabels labels validLabels
        = validLabels ++ (labels.map H.normalizeLabel).filter H.validateLabel := by
  induction labels with
  | nil => intro validLabels _; simp [validateLoop]
  | cons label rest ih =>
    intro validLabels hlen
    simp only [List.length_cons, Nat.cast_add, Nat.cast_one] at hlen
    by_cases hv : H.validateLabel (H.normalizeLabel label) = true
    · rw [validateLoop_cons_valid H maxLabels label rest validLabels hv]
      simp only [List.map_cons, List.filter_cons, hv, if_true]
      by_cases hge : ((validLabels ++ [H.normalizeLabel label]).length : Int) ≥ maxLabels
      · rw [if_pos hge]
        simp only [List.length_append, List.length_singleton, Nat.cast_add, Nat.cast_one] at hge
        have hr : rest = [] := List.length_eq_zero.1 (by omega)
        subst hr
        simp
      · rw [if_neg hge, ih _ (by
          simp only [List.length_append, List.length_singleton, Nat.cast_add, Nat.cast_one]
          omega)]
        simp
    · rw [validateLoop_cons_invalid H maxLabels label rest validLabels hv]
      have hge : ¬ (validLabels.length : Int) ≥ maxLabels := by omega
      rw [if_neg hge, ih _ (by omega)]
      simp [List.filter_cons, hv]

theorem candidates_length_le (H : Helpers) (rt : Runtime) (hrt : rt.Lawful) (cleanedText : String)
    (maxLabels : Int) (hm : 1 ≤ maxLabels) :
    ((candidates H rt cleanedText maxLabels).length : Int) ≤ maxLabels := by
  rw [candidates_eq_take H rt hrt cleanedText maxLabels hm, List.length_take]
  omega

theorem labels_eq_filter (H : Helpers) (rt : Runtime) (hrt : rt.Lawful) (text : String)
    (maxLabels : Int) (h : ¬ (goLen (H.cleanText text) : Int) < MinContentLength) :
    (GenerateLabels H rt text maxLabels).Labels
      = ((candidates H rt (H.cleanText text) (clampMaxLabels maxLabels)).map
          H.normalizeLabel).filter H.validateLabel := by
  rw [GenerateLabels_of_long H rt text maxLabels h]
  have hlen := candidates_length_le H rt hrt (H.cleanText text) (clampMaxLabels maxLabels)
    (clampMaxLabels_pos maxLabels)
  simp only
  rw [validateLoop_eq_filter H _ _ [] (by simpa using hlen)]
  simp

/-! ## The sample runtimes are lawful -/

theorem insertionSort_scoredWord_sorted (l : List scoredWord) :
    (l.insertionSort fun a b => b.score ≤ a.score).Pairwise (fun a b => ¬ b.score > a.score) := by
  haveI : IsTotal scoredWord (fun a b => b.score ≤ a.score) := ⟨fun a b => le_total _ _⟩
  haveI : IsTrans scoredWord (fun a b => b.score ≤ a.score) := ⟨fun _ _ _ h1 h2 => le_trans h2 h1⟩
  exact (List.sorted_insertionSort (fun a b : scoredWord => b.score ≤ a.score) l).imp
    (fun h => not_lt.2 h)

theorem insertionSort_scoredNGram_sorted (l : List scoredNGram) :
    (l.insertionSort fun a b => b.score ≤ a.score).Pairwise (fun a b => ¬ b.score > a.score) := by
  haveI : IsTotal scoredNGram (fun a b => b.score ≤ a.score) := ⟨fun a b => le_total _ _⟩
  haveI : IsTrans scoredNGram (fun a b => b.score ≤ a.score) := ⟨fun _ _ _ h1 h2 => le_trans h2 h1⟩
  exact (List.sorted_insertionSort (fun a b : scoredNGram => b.score ≤ a.score) l).imp
    (fun h => not_lt.2 h)

theorem stableRuntime_lawful : stableRuntime.Lawful where
  rangeWordFreq_perm := fun m => List.Perm.refl m
  rangeNGramFreq_perm := fun m => List.Perm.refl m
  sortWords_perm := fun l => List.perm_insertionSort _ l
  sortNGrams_perm := fun l => List.perm_insertionSort _ l
  sortWords_sorted := insertionSort_scoredWord_sorted
  sortNGrams_sorted := insertionSort_scoredNGram_sorted

theorem reversedRuntime_lawful : reversedRuntime.Lawful where
  rangeWordFreq_perm := fun m => List.reverse_perm m
  rangeNGramFreq_perm := fun m => List.reverse_perm m
  sortWords_perm := fun l => List.perm_insertionSort _ l
  sortNGrams_perm := fun l => List.perm_insertionSort _ l
  sortWords_sorted := insertionSort_scoredWord_sorted
  sortNGrams_sorted := insertionSort_scoredNGram_sorted

theorem candidates_nodup (H : Helpers) (rt : Runtime) (hrt : rt.Lawful) (cleanedText : String)
    (maxLabels : Int) (hm : 1 ≤ maxLabels) : (candidates H rt cleanedText maxLabels).Nodup := by
  rw [candidates_eq_take H rt hrt cleanedText maxLabels hm]
  exact (fullRanking_nodup H rt hrt cleanedText).sublist (List.take_sublist _ _)

/-! ## C4 -/

theorem labels_nodup_of_injective (H : Helpers) (rt : Runtime) (text : String)
    (maxLabels : Int) (hrt : rt.Lawful)
    (hinj : ∀ a ∈ candidates H rt (H.cleanText text) (clampMaxLabels maxLabels),
      ∀ b ∈ candidates H rt (H.cleanText text) (clampMaxLabels maxLabels),
        H.normalizeLabel a = H.normalizeLabel b → a = b) :
    (candidates H rt (H.cleanText text) (clampMaxLabels maxLabels)).Nodup
      ∧ (GenerateLabels H rt text maxLabels).Labels.Nodup := by
  have hc := candidates_nodup H rt hrt (H.cleanText text) (clampMaxLabels maxLabels)
    (clampMaxLabels_pos maxLabels)
  refine ⟨hc, ?_⟩
  by_cases hs : (goLen (H.cleanText text) : Int) < MinContentLength
  · rw [GenerateLabels_of_short H rt text maxLabels hs]
    exact List.nodup_nil
  · rw [labels_eq_filter H rt hrt text maxLabels hs]
    exact (List.Nodup.map_on hinj hc).filter _

theorem mem_of_mem_runsOf (p : Char → Bool) : ∀ (cs cur : List Char) (r : List Char),
    r ∈ runsOf p cs cur → ∀ x ∈ r, (p x = true ∧ x ∈ cs) ∨ x ∈ cur := by
  intro cs
  induction cs with
  | nil =>
    intro cur r hr x hx
    by_cases hcur : cur = []
    · simp [runsOf, hcur] at hr
    · simp only [runsOf, if_neg hcur, List.mem_singleton] at hr
      rw [hr] at hx
      exact Or.inr (List.mem_reverse.1 hx)
  | cons c cs ih =>
    intro cur r hr x hx
    by_cases hp : p c = true
    · simp only [runsOf, if_pos hp] at hr
      rcases ih (c :: cur) r hr x hx with ⟨h1, h2⟩ | h
      · exact Or.inl ⟨h1, List.mem_cons_of_mem _ h2⟩
      · rcases List.mem_cons.1 h with h | h
        · exact Or.inl ⟨h ▸ hp, h ▸ List.mem_cons_self _ _⟩
        · exact Or.inr h
    · by_cases hcur : cur = []
      · simp only [runsOf, if_neg hp, if_pos hcur] at hr
        rcases ih [] r hr x hx with ⟨h1, h2⟩ | h
        · exact Or.inl ⟨h1, List.mem_cons_of_mem _ h2⟩
        · exact absurd h (List.not_mem_nil x)
      · simp only [runsOf, if_neg hp, if_neg hcur, List.mem_cons] at hr
        rcases hr with hr | hr
        · rw [hr] at hx
          exact Or.inr (List.mem_reverse.1 hx)
        · rcases ih [] r hr x hx with ⟨h1, h2⟩ | h
          · exact Or.inl ⟨h1, List.mem_cons_of_mem _ h2⟩
          · exact absurd h (List.not_mem_nil x)

theorem mem_of_mem_sampleNGrams : ∀ (cs : List Char) (g : String),
    g ∈ sampleNGrams cs → ∀ x ∈ g.data, x ∈ cs := by
  intro cs
  induction cs with
  | nil => intro g hg; simp [sampleNGrams] at hg
  | cons a tail ih =>
    intro g hg x hx
    cases tail with
    | nil => simp [sampleNGrams] at hg
    | cons b tail2 =>
      cases tail2 with
      | nil =>
        simp only [sampleNGrams, List.mem_singleton] at hg
        rw [hg] at hx
        exact hx
      | cons c tail3 =>
        simp only [sampleNGrams, List.mem_cons] at hg
        rcases hg with hg | hg | hg
        · rw [hg] at hx
          simp only [List.mem_cons, List.mem_singleton, List.not_mem_nil, or_false] at hx
          rcases hx with h | h <;> simp [h]
        · rw [hg] at hx
          simp only [List.mem_cons, List.mem_singleton, List.not_mem_nil, or_false] at hx
          rcases hx with h | h | h <;> simp [h]
        · exact List.mem_cons_of_mem _ (ih g hg x hx)

theorem dropWhile_eq_self (p : Char → Bool) (cs : List Char) (h : ∀ x ∈ cs, p x = false) :
    cs.dropWhile p = cs := by
  cases cs with
  | nil => rfl
  | cons c cs =>
    have hc : ¬ p c = true := by simp [h c (List.mem_cons_self _ _)]
    exact List.dropWhile_cons_of_neg hc

theorem trimOf_eq_self (p : Char → Bool) (cs : List Char) (h : ∀ x ∈ cs, p x = false) :
    trimOf p cs = cs := by
  unfold trimOf
  rw [dropWhile_eq_self p cs h,
    dropWhile_eq_self p cs.reverse (fun x hx => h x (List.mem_reverse.1 hx)),
    List.reverse_reverse]

theorem specNormalizeLabel_fixed (T : SpecTables) (c : String)
    (hspace : ∀ x ∈ c.data, T.isSpace x = false) (hlower : ∀ x ∈ c.data, T.lower x = x) :
    specNormalizeLabel T c = c := by
  unfold specNormalizeLabel
  rw [trimOf_eq_self T.isSpace c.data hspace]
  have hmap : c.data.map T.lower = c.data := by
    conv_rhs => rw [← List.map_id c.data]
    exact List.map_congr_left (fun x hx => by simpa using hlower x hx)
  rw [hmap]

theorem specSplitWords_fixed (T : SpecTables) (hT : T.Sound) (text : String) (isChinese : Bool)
    (c : String) (hc : c ∈ specSplitWords T text isChinese) :
    specNormalizeLabel T c = c := by
  unfold specSplitWords at hc
  by_cases hch : isChinese = true
  · rw [if_pos hch] at hc
    obtain ⟨run, hrun, hg⟩ := List.mem_flatMap.1 hc
    have hcjk : ∀ x ∈ c.data, T.isCJK x = true := by
      intro x hx
      rcases mem_of_mem_runsOf T.isCJK text.data [] run hrun x
        (mem_of_mem_sampleNGrams run c hg x hx) with h | h
      · exact h.1
      · exact absurd h (List.not_mem_nil x)
    exact specNormalizeLabel_fixed T c (fun x hx => hT.cjk_not_space x (hcjk x hx))
      (fun x hx => hT.lower_cjk x (hcjk x hx))
  · rw [if_neg hch] at hc
    obtain ⟨run, hrun, rfl⟩ := List.mem_map.1 (List.mem_filter.1 hc).1
    have hrunmem : ∀ x ∈ run, T.isLetter x = true ∧ x ∈ text.data.map T.lower := by
      intro x hx
      rcases mem_of_mem_runsOf T.isLetter _ [] run hrun x hx with h | h
      · exact h
      · exact absurd h (List.not_mem_nil x)
    refine specNormalizeLabel_fixed T _ (fun x hx => hT.letter_not_space x (hrunmem x hx).1) ?_
    intro x hx
    obtain ⟨y, _, hy⟩ := List.mem_map.1 (hrunmem x hx).2
    rw [← hy]
    exact hT.lower_lower y

theorem spec_tokens_fixed (T : SpecTables) (hT : T.Sound) (H : Helpers) (cleanedText : String)
    (c : String) (hc : c ∈ tokensOf (specHelpers T H) cleanedText) :
    (specHelpers T H).normalizeLabel c = c := by
  unfold tokensOf at hc
  by_cases hch : (specHelpers T H).isChineseText cleanedText = true
  · rw [if_pos hch] at hc
    exact specSplitWords_fixed T hT cleanedText true c hc
  · rw [if_neg hch] at hc
    exact specSplitWords_fixed T hT _ false c hc

theorem mem_candidates_tokens (H : Helpers) (rt : Runtime) (hrt : rt.Lawful)
    (cleanedText : String) (maxLabels : Int) (hm : 1 ≤ maxLabels) (c : String)
    (hc : c ∈ candidates H rt cleanedText maxLabels) : c ∈ tokensOf H cleanedText := by
  rw [candidates_eq_take H rt hrt cleanedText maxLabels hm] at hc
  exact mem_fullRanking_tokens H rt hrt cleanedText c (List.mem_of_mem_take hc)

/-- C4: with `splitWords`, `normalizeLabel` and `isChineseText` as the specification
describes them (for every sound choice of the tables it leaves open, every cleanText
and every validateLabel), for every text and every maxLabels, on every lawful
runtime: the Labels returned by GenerateLabels contain no two equal entries.  Every
candidate is left as it is by normalizeLabel, so two different candidates never
have the same normalised form: case variants such as "Data" and "data" are one key
of the frequency map, because the text is lower-cased before it is counted. -/
theorem C4_labels_have_no_duplicates (T : SpecTables) (H : Helpers) (rt : Runtime)
    (text : String) (maxLabels : Int) (hT : T.Sound) (hrt : rt.Lawful) :
    (GenerateLabels (specHelpers T H) rt text maxLabels).Labels.Nodup
      ∧ (∀ a ∈ candidates (specHelpers T H) rt ((specHelpers T H).cleanText text)
            (clampMaxLabels maxLabels),
          ∀ b ∈ candidates (specHelpers T H) rt ((specHelpers T H).cleanText text)
            (clampMaxLabels maxLabels),
            (specHelpers T H).normalizeLabel a = (specHelpers T H).normalizeLabel b → a = b)
      ∧ (∀ a ∈ candidates (specHelpers T H) rt ((specHelpers T H).cleanText text)
            (clampMaxLabels maxLabels), (specHelpers T H).normalizeLabel a = a) := by
  have hfix : ∀ a ∈ candidates (specHelpers T H) rt ((specHelpers T H).cleanText text)
      (clampMaxLabels maxLabels), (specHelpers T H).normalizeLabel a = a := fun a ha =>
    spec_tokens_fixed T hT H _ a
      (mem_candidates_tokens _ rt hrt _ _ (clampMaxLabels_pos maxLabels) a ha)
  have hinj : ∀ a ∈ candidates (specHelpers T H) rt ((specHelpers T H).cleanText text)
      (clampMaxLabels maxLabels),
      ∀ b ∈ candidates (specHelpers T H) rt ((specHelpers T H).cleanText text)
        (clampMaxLabels maxLabels),
        (specHelpers T H).normalizeLabel a = (specHelpers T H).normalizeLabel b → a = b := by
    intro a ha b hb hab
    rw [hfix a ha, hfix b hb] at hab
    exact hab
  exact ⟨(labels_nodup_of_injective (specHelpers T H) rt text maxLabels hrt hinj).2, hinj, hfix⟩

theorem asciiTables_sound : asciiTables.Sound where
  lower_lower := by
    intro c
    simp only [asciiTables]
    by_cases hu : 65 ≤ c.toNat ∧ c.toNat ≤ 90
    · rw [if_pos hu]
      have hval : (Char.ofNat (c.toNat + 32)).toNat = c.toNat + 32 := by
        obtain ⟨h1, h2⟩ := hu
        generalize c.toNat = n at h1 h2
        interval_cases n <;> rfl
      rw [if_neg (by rw [hval]; omega)]
    · rw [if_neg hu, if_neg hu]
  lower_cjk := by
    intro c hc
    simp only [asciiTables, decide_eq_true_eq] at hc ⊢
    rw [if_neg (by omega)]
  letter_not_space := by
    intro c hc
    simp only [asciiTables, decide_eq_true_eq, decide_eq_false_iff_not] at hc ⊢
    omega
  cjk_not_space := by
    intro c hc
    simp only [asciiTables, decide_eq_true_eq, decide_eq_false_iff_not] at hc ⊢
    omega

/-- C4 on two samples with ASCII tables.  In the Latin text "Data" and "data" occur
twice each and yield the single label "data"; in the mixed text, which is CJK by
majority, the n-grams stay inside the CJK runs, so "AI" and "ai" yield nothing. -/
theorem C4_witness :
    (GenerateLabels (specHelpers asciiTables sampleHelpers) stableRuntime dataText 5).Labels.Nodup
      ∧ (GenerateLabels (specHelpers asciiTables sampleHelpers) stableRuntime dataText 5).Labels
          = ["data", "pipelines", "move", "lakes", "store"]
      ∧ (GenerateLabels (specHelpers asciiTables sampleHelpers) stableRuntime mixedScript
          5).Labels = ["人工智", "工智能", "很好很", "好很好", "很好"] :=
  ⟨(C4_labels_have_no_duplicates asciiTables sampleHelpers stableRuntime dataText 5
    asciiTables_sound stableRuntime_lawful).1, by decide!, by decide!⟩

/-! ## C5 -/

theorem rankedWords_unique (rt1 rt2 : Runtime) (h1 : rt1.Lawful) (h2 : rt2.Lawful)
    (words : List String)
    (hnd : ((scoreWords (words.length : ℚ) (countFreq words)).map fun s => s.score).Nodup) :
    rankedWords rt1 words = rankedWords rt2 words := by
  have p1 := rankedWords_perm rt1 h1 words
  have p2 := rankedWords_perm rt2 h2 words
  refine List.Perm.eq_of_sorted ?_ (rankedWords_sorted rt1 h1 words)
    (rankedWords_sorted rt2 h2 words) (p1.trans p2.symm)
  intro a b ha hb hab hba
  exact List.inj_on_of_nodup_map hnd (p1.mem_iff.1 ha) (p2.mem_iff.1 hb) (le_antisymm hba hab)

theorem take_eq_of_sorted_perm {α : Type} (key : α → ℚ) :
    ∀ (m : Nat) (l1 l2 : List α), l1.Perm l2 →
      l1.Pairwise (fun a b => key b ≤ key a) → l2.Pairwise (fun a b => key b ≤ key a) →
      ((l2.map key).take (m + 1)).Nodup → l1.take m = l2.take m := by
  intro m
  induction m with
  | zero => intro l1 l2 _ _ _ _; rfl
  | succ m ih =>
    intro l1 l2 hp h1 h2 hnd
    cases l2 with
    | nil => rw [hp.eq_nil]
    | cons b l2 =>
      cases l1 with
      | nil => exact absurd hp.symm.eq_nil (by simp)
      | cons a l1 =>
        rw [List.map_cons, List.take_succ_cons, List.nodup_cons] at hnd
        have h1c := List.pairwise_cons.1 h1
        have h2c := List.pairwise_cons.1 h2
        have hab : a = b := by
          by_contra hne
          have ha2 : a ∈ l2 := by
            rcases List.mem_cons.1 (hp.subset (List.mem_cons_self a l1)) with h | h
            · exact absurd h hne
            · exact h
          have hb1 : key b ≤ key a := by
            rcases List.mem_cons.1 (hp.symm.subset (List.mem_cons_self b l2)) with h | h
            · rw [h]
            · exact h1c.1 b h
          cases l2 with
          | nil => exact absurd ha2 (List.not_mem_nil a)
          | cons c l2 =>
            have hcb : key c ≠ key b := by
              intro h
              apply hnd.1
              rw [List.map_cons, List.take_succ_cons, ← h]
              exact List.mem_cons_self _ _
            have hcb2 : key c ≤ key b := h2c.1 c (List.mem_cons_self c l2)
            have hac : key a ≤ key c := by
              rcases List.mem_cons.1 ha2 with h | h
              · rw [h]
              · exact (List.pairwise_cons.1 h2c.2).1 a h
            exact hcb (le_antisymm hcb2 (le_trans hb1 hac))
        subst hab
        rw [List.take_succ_cons, List.take_succ_cons,
          ih l1 l2 (List.Perm.cons_inv hp) h1c.2 h2c.2 hnd.2]

theorem descending_eq_of_sorted_perm (l scores : List ℚ) (hp : l.Perm scores)
    (hs : l.Pairwise (fun a b => b ≤ a)) : l = descending scores := by
  haveI : IsTotal ℚ (fun a b => b ≤ a) := ⟨fun a b => le_total b a⟩
  haveI : IsTrans ℚ (fun a b => b ≤ a) := ⟨fun _ _ _ h1 h2 => le_trans h2 h1⟩
  refine List.Perm.eq_of_sorted ?_ hs
    (List.sorted_insertionSort (fun a b : ℚ => b ≤ a) scores)
    (hp.trans (List.perm_insertionSort _ scores).symm)
  intro a b _ _ hab hba
  exact le_antisymm hba hab

theorem rankedWords_scores (rt : Runtime) (hrt : rt.Lawful) (words : List String) :
    (rankedWords rt words).map (fun s => s.score) = wordScoresDescending words :=
  descending_eq_of_sorted_perm _ _ ((rankedWords_perm rt hrt words).map _)
    (List.pairwise_map.2 (rankedWords_sorted rt hrt words))

theorem rankedNGrams_scores (rt : Runtime) (hrt : rt.Lawful) (ngrams : List String) (len : Nat) :
    ((rankedNGrams rt ngrams).filter fun s => decide (runeLen s.ngram = len)).map
        (fun s => s.score)
      = ngramScoresDescending len ngrams :=
  descending_eq_of_sorted_perm _ _ (((rankedNGrams_perm rt hrt ngrams).filter _).map _)
    (List.pairwise_map.2 ((rankedNGrams_sorted rt hrt ngrams).filter _))

theorem englishRanking_take_unique (rt1 rt2 : Runtime) (h1 : rt1.Lawful) (h2 : rt2.Lawful)
    (words : List String) (m : Nat)
    (hnd : ((wordScoresDescending words).take (m + 1)).Nodup) :
    (englishRanking rt1 words).take m = (englishRanking rt2 words).take m := by
  unfold englishRanking
  rw [← List.map_take, ← List.map_take,
    take_eq_of_sorted_perm (fun s : scoredWord => s.score) m _ _
      ((rankedWords_perm rt1 h1 words).trans (rankedWords_perm rt2 h2 words).symm)
      (rankedWords_sorted rt1 h1 words) (rankedWords_sorted rt2 h2 words)
      (by rw [rankedWords_scores rt2 h2 words]; exact hnd)]

theorem ngrams_take_unique (rt1 rt2 : Runtime) (h1 : rt1.Lawful) (h2 : rt2.Lawful)
    (ngrams : List String) (len m : Nat)
    (hnd : ((ngramScoresDescending len ngrams).take (m + 1)).Nodup) :
    ((rankedNGrams rt1 ngrams).filter fun s => decide (runeLen s.ngram = len)).take m
      = ((rankedNGrams rt2 ngrams).filter fun s => decide (runeLen s.ngram = len)).take m :=
  take_eq_of_sorted_perm (fun s : scoredNGram => s.score) m _ _
    (((rankedNGrams_perm rt1 h1 ngrams).trans (rankedNGrams_perm rt2 h2 ngrams).symm).filter _)
    ((rankedNGrams_sorted rt1 h1 ngrams).filter _) ((rankedNGrams_sorted rt2 h2 ngrams).filter _)
    (by rw [rankedNGrams_scores rt2 h2 ngrams len]; exact hnd)

theorem trigramsOf_length (rt : Runtime) (hrt : rt.Lawful) (ngrams : List String) :
    (trigramsOf (rankedNGrams rt ngrams)).length = (ngramScoresDescending 3 ngrams).length := by
  rw [← rankedNGrams_scores rt hrt ngrams 3, trigramsOf, List.length_map, List.length_map]

theorem chineseRanking_take_unique (rt1 rt2 : Runtime) (h1 : rt1.Lawful) (h2 : rt2.Lawful)
    (ngrams : List String) (m : Nat)
    (hnd3 : ((ngramScoresDescending 3 ngrams).take (m + 1)).Nodup)
    (hnd2 : ((ngramScoresDescending 2 ngrams).take
      (m + 1 - (ngramScoresDescending 3 ngrams).length)).Nodup) :
    (chineseRanking rt1 ngrams).take m = (chineseRanking rt2 ngrams).take m := by
  have ht : (trigramsOf (rankedNGrams rt1 ngrams)).take m
      = (trigramsOf (rankedNGrams rt2 ngrams)).take m := by
    unfold trigramsOf
    rw [← List.map_take, ← List.map_take, ngrams_take_unique rt1 rt2 h1 h2 ngrams 3 m hnd3]
  have hl1 := trigramsOf_length rt1 h1 ngrams
  have hl2 := trigramsOf_length rt2 h2 ngrams
  have hb : (bigramsOf (rankedNGrams rt1 ngrams)).take
        (m - (ngramScoresDescending 3 ngrams).length)
      = (bigramsOf (rankedNGrams rt2 ngrams)).take
        (m - (ngramScoresDescending 3 ngrams).length) := by
    by_cases hle : (ngramScoresDescending 3 ngrams).length ≤ m
    · have e : m + 1 - (ngramScoresDescending 3 ngrams).length
          = (m - (ngramScoresDescending 3 ngrams).length) + 1 := by omega
      rw [e] at hnd2
      unfold bigramsOf
      rw [← List.map_take, ← List.map_take,
        ngrams_take_unique rt1 rt2 h1 h2 ngrams 2 _ hnd2]
    · have e : m - (ngramScoresDescending 3 ngrams).length = 0 := by omega
      rw [e, List.take_zero, List.take_zero]
  unfold chineseRanking
  rw [List.take_append_eq_append_take, List.take_append_eq_append_take, hl1, hl2, ht, hb]

theorem fullRanking_take_unique (H : Helpers) (rt1 rt2 : Runtime) (h1 : rt1.Lawful)
    (h2 : rt2.Lawful) (cleanedText : String) (m : Nat) (hnt : NoTieInTop H cleanedText m) :
    (fullRanking H rt1 cleanedText).take m = (fullRanking H rt2 cleanedText).take m := by
  unfold fullRanking
  unfold NoTieInTop at hnt
  by_cases hc : H.isChineseText cleanedText = true
  · rw [if_pos hc] at hnt
    rw [if_pos hc, if_pos hc]
    exact chineseRanking_take_unique rt1 rt2 h1 h2 _ m hnt.1 hnt.2
  · rw [if_neg hc] at hnt
    rw [if_neg hc, if_neg hc]
    exact englishRanking_take_unique rt1 rt2 h1 h2 _ m hnt

/-- C5 as stated fails: two lawful runtimes that differ only in the order in which
`range` visits the frequency map return different Labels for the same text and
maxLabels, because several words share the lowest score. -/
theorem C5_counterexample :
    stableRuntime.Lawful ∧ reversedRuntime.Lawful
      ∧ (GenerateLabels sampleHelpers stableRuntime latinSample 5).Labels
          = ["blockchain", "is", "here", "and", "there"]
      ∧ (GenerateLabels sampleHelpers reversedRuntime latinSample 5).Labels
          = ["blockchain", "is", "wins", "so", "there"]
      ∧ GenerateLabels sampleHelpers stableRuntime latinSample 5
          ≠ GenerateLabels sampleHelpers reversedRuntime latinSample 5 :=
  ⟨stableRuntime_lawful, reversedRuntime_lawful, by decide!, by decide!, by decide!⟩

/-- C5 amended: when the text fails the length gate, or no tie in score reaches the
first m ranks (m the clamped maxLabels) of the selected pipeline, GenerateLabels
returns the same result on every lawful runtime, that is for every order in which
the frequency map is enumerated and every way the score sort places candidates of
equal score.  Ties further down the ranking are allowed. -/
theorem C5_deterministic_without_top_ties (H : Helpers) (rt1 rt2 : Runtime) (text : String)
    (maxLabels : Int) (h1 : rt1.Lawful) (h2 : rt2.Lawful)
    (hnt : ¬ (goLen (H.cleanText text) : Int) < MinContentLength →
      NoTieInTop H (H.cleanText text) (clampMaxLabels maxLabels).toNat) :
    GenerateLabels H rt1 text maxLabels = GenerateLabels H rt2 text maxLabels := by
  by_cases hs : (goLen (H.cleanText text) : Int) < MinContentLength
  · rw [GenerateLabels_of_short H rt1 text maxLabels hs,
      GenerateLabels_of_short H rt2 text maxLabels hs]
  · rw [GenerateLabels_of_long H rt1 text maxLabels hs,
      GenerateLabels_of_long H rt2 text maxLabels hs,
      candidates_eq_take H rt1 h1 _ _ (clampMaxLabels_pos maxLabels),
      candidates_eq_take H rt2 h2 _ _ (clampMaxLabels_pos maxLabels),
      fullRanking_take_unique H rt1 rt2 h1 h2 _ _ (hnt hs)]

/-- C5 amended, on the text of the counterexample: the five words of lowest score
tie, but with maxLabels = 2 the tie starts at rank 3 and the two sample runtimes
return the same two labels. -/
theorem C5_witness :
    GenerateLabels sampleHelpers stableRuntime latinSample 2
        = GenerateLabels sampleHelpers reversedRuntime latinSample 2
      ∧ (GenerateLabels sampleHelpers reversedRuntime latinSample 2).Labels
          = ["blockchain", "is"]
      ∧ wordScoresDescending
          (sampleHelpers.splitWords (sampleHelpers.toLower latinSample) false)
          = [9 / 20, 3 / 10, 1 / 10, 1 / 10, 1 / 10, 1 / 10, 1 / 10] :=
  ⟨C5_deterministic_without_top_ties sampleHelpers stableRuntime reversedRuntime latinSample 2
    stableRuntime_lawful reversedRuntime_lawful (fun _ => by unfold NoTieInTop; decide!),
    by decide!, by decide!⟩

/-! ## C6 -/

theorem validateLoop_mem (H : Helpers) (maxLabels : Int) (labels : List String) :
    ∀ (validLabels : List String) (x : String),
      x ∈ validateLoop H maxLabels labels validLabels →
      x ∈ validLabels ∨ ∃ c ∈ labels, x = H.normalizeLabel c ∧ H.validateLabel x = true := by
  induction labels with
  | nil => intro validLabels x hx; exact Or.inl (by simpa [validateLoop] using hx)
  | cons label rest ih =>
    intro validLabels x hx
    by_cases hv : H.validateLabel (H.normalizeLabel label) = true
    · rw [validateLoop_cons_valid H maxLabels label rest validLabels hv] at hx
      have happ : x ∈ validLabels ++ [H.normalizeLabel label] →
          x ∈ validLabels ∨
            ∃ c ∈ label :: rest, x = H.normalizeLabel c ∧ H.validateLabel x = true := by
        intro h
        rcases List.mem_append.1 h with h | h
        · exact Or.inl h
        · have hx : x = H.normalizeLabel label := by simpa using h
          exact Or.inr ⟨label, List.mem_cons_self _ _, hx, hx ▸ hv⟩
      by_cases hge : ((validLabels ++ [H.normalizeLabel label]).length : Int) ≥ maxLabels
      · rw [if_pos hge] at hx
        exact happ hx
      · rw [if_neg hge] at hx
        rcases ih _ x hx with h | ⟨c, hc, h⟩
        · exact happ h
        · exact Or.inr ⟨c, List.mem_cons_of_mem _ hc, h⟩
    · rw [validateLoop_cons_invalid H maxLabels label rest validLabels hv] at hx
      by_cases hge : (validLabels.length : Int) ≥ maxLabels
      · rw [if_pos hge] at hx
        exact Or.inl hx
      · rw [if_neg hge] at hx
        rcases ih _ x hx with h | ⟨c, hc, h⟩
        · exact Or.inl h
        · exact Or.inr ⟨c, List.mem_cons_of_mem _ hc, h⟩

/-- C6: for every text and maxLabels, and every behaviour of the helpers and the
runtime, each label returned by GenerateLabels is normalizeLabel(c) for a candidate c
returned by the selected pipeline and is accepted by validateLabel; hence, when
validateLabel accepts only strings of 2 to 30 characters, each label has a length
in [2, 30]. -/
theorem C6_labels_are_validated_candidates (H : Helpers) (rt : Runtime) (text : String)
    (maxLabels : Int) (label : String)
    (hl : label ∈ (GenerateLabels H rt text maxLabels).Labels) :
    (∃ c ∈ candidates H rt (H.cleanText text) (clampMaxLabels maxLabels),
        label = H.normalizeLabel c)
      ∧ H.validateLabel label = true
      ∧ ((∀ s, H.validateLabel s = true → MinLabelLength ≤ runeLen s ∧ runeLen s ≤ MaxLabelLength)
          → 2 ≤ runeLen label ∧ runeLen label ≤ 30) := by
  by_cases hs : (goLen (H.cleanText text) : Int) < MinContentLength
  · rw [GenerateLabels_of_short H rt text maxLabels hs] at hl
    exact absurd hl (List.not_mem_nil _)
  · rw [GenerateLabels_of_long H rt text maxLabels hs] at hl
    rcases validateLoop_mem H _ _ [] label hl with h | ⟨c, hc, hn, hv⟩
    · exact absurd h (List.not_mem_nil _)
    · exact ⟨⟨c, hc, hn⟩, hv, fun hlen => hlen label hv⟩

/-- C6 on a Latin sample: the returned label "blockchain" is accepted by the sample
validateLabel and has between 2 and 30 characters. -/
theorem C6_witness :
    "blockchain" ∈ (GenerateLabels sampleHelpers stableRuntime latinSample 5).Labels
      ∧ sampleHelpers.validateLabel "blockchain" = true
      ∧ 2 ≤ runeLen "blockchain" ∧ runeLen "blockchain" ≤ 30 :=
  have h := C6_labels_are_validated_candidates sampleHelpers stableRuntime latinSample 5
    "blockchain" (by decide!)
  ⟨by decide!, h.2.1, h.2.2 (fun s hs => by
    simpa [sampleHelpers, MinLabelLength, MaxLabelLength] using hs)⟩

/-! ## C9 -/

/-- C9 as stated fails: with maxLabels = 1 the only candidate handed to validation is
the top-ranked word, which has 34 letters and is rejected; GenerateLabels returns no
label although the ranking holds the valid word "nice" right after it. -/
theorem C9_counterexample :
    stableRuntime.Lawful
      ∧ ¬ (goLen (sampleHelpers.cleanText longWord) : Int) < MinContentLength
      ∧ fullRanking sampleHelpers stableRuntime (sampleHelpers.cleanText longWord)
          = ["supercalifragilisticexpialidocious", "nice"]
      ∧ (((fullRanking sampleHelpers stableRuntime (sampleHelpers.cleanText longWord)).map
            sampleHelpers.normalizeLabel).filter sampleHelpers.validateLabel).take
              (clampMaxLabels 1).toNat = ["nice"]
      ∧ (GenerateLabels sampleHelpers stableRuntime longWord 1).Labels = [] :=
  ⟨stableRuntime_lawful, by decide, by decide!, by decide!, by decide!⟩

/-- C9 amended: for every text that passes the length gate and every maxLabels, on a
lawful runtime, the Labels of GenerateLabels are the normalised forms accepted by
validateLabel among the first m entries (m the clamped maxLabels) of the ranked
candidate list, in ranked order: the cut at m is made by the pipeline, before
validation. -/
theorem C9_labels_are_validated_top (H : Helpers) (rt : Runtime) (text : String)
    (maxLabels : Int) (hrt : rt.Lawful)
    (hlong : ¬ (goLen (H.cleanText text) : Int) < MinContentLength) :
    (GenerateLabels H rt text maxLabels).Labels
      = (((fullRanking H rt (H.cleanText text)).take (clampMaxLabels maxLabels).toNat).map
          H.normalizeLabel).filter H.validateLabel := by
  rw [labels_eq_filter H rt hrt text maxLabels hlong,
    candidates_eq_take H rt hrt _ _ (clampMaxLabels_pos maxLabels)]

/-- C9 amended, on a Latin sample with maxLabels = 2: of the two top-ranked words
only "nice" passes validation, and it is the only label. -/
theorem C9_witness :
    (GenerateLabels sampleHelpers stableRuntime longWord 2).Labels
        = (((fullRanking sampleHelpers stableRuntime (sampleHelpers.cleanText longWord)).take
            (clampMaxLabels 2).toNat).map sampleHelpers.normalizeLabel).filter
              sampleHelpers.validateLabel
      ∧ (GenerateLabels sampleHelpers stableRuntime longWord 2).Labels = ["nice"] :=
  ⟨C9_labels_are_validated_top sampleHelpers stableRuntime longWord 2 stableRuntime_lawful
    (by decide), by decide!⟩

/-! ## C10 -/

theorem fullRanking_of_no_tokens (H : Helpers) (rt : Runtime) (hrt : rt.Lawful)
    (cleanedText : String) (htok : tokensOf H cleanedText = []) :
    fullRanking H rt cleanedText = [] := by
  apply List.eq_nil_iff_forall_not_mem.2
  intro c hc
  have := mem_fullRanking_tokens H rt hrt cleanedText c hc
  rw [htok] at this
  exact absurd this (List.not_mem_nil _)

/-- C10: for every text whose cleaned form passes the length gate while the
tokenizer of the selected pipeline returns no tokens, on a lawful runtime: the
frequency map has no entry to visit, so the scoring loop body with its division by
the total is never entered; the pipeline returns no candidates; and GenerateLabels
returns empty Labels with IsTooShort = false.  Moreover, for every token list,
whenever the scoring loop visits an entry the total it divides by is not zero. -/
theorem C10_no_tokens_gives_empty_result (H : Helpers) (rt : Runtime) (text : String)
    (maxLabels : Int) (hrt : rt.Lawful)
    (hlong : ¬ (goLen (H.cleanText text) : Int) < MinContentLength)
    (htok : tokensOf H (H.cleanText text) = []) :
    rt.rangeWordFreq (countFreq (tokensOf H (H.cleanText text))) = []
      ∧ rt.rangeNGramFreq (countFreq (tokensOf H (H.cleanText text))) = []
      ∧ candidates H rt (H.cleanText text) (clampMaxLabels maxLabels) = []
      ∧ GenerateLabels H rt text maxLabels = { Labels := [], IsTooShort := false }
      ∧ (∀ (words : List String) (e : String × Nat),
          e ∈ rt.rangeWordFreq (countFreq words) → (words.length : ℚ) ≠ 0)
      ∧ (∀ (ngrams : List String) (e : String × Nat),
          e ∈ rt.rangeNGramFreq (countFreq ngrams) → (ngrams.length : ℚ) ≠ 0) := by
  have hc : candidates H rt (H.cleanText text) (clampMaxLabels maxLabels) = [] := by
    rw [candidates_eq_take H rt hrt _ _ (clampMaxLabels_pos maxLabels),
      fullRanking_of_no_tokens H rt hrt _ htok, List.take_nil]
  have hdiv : ∀ (m : FreqMap) (words : List String) (e : String × Nat),
      m.Perm (countFreq words) → e ∈ m → (words.length : ℚ) ≠ 0 := by
    intro m words e hp he
    have hk : e.1 ∈ words :=
      (mem_keys_countFreq words e.1).1 (List.mem_map_of_mem Prod.fst (hp.mem_iff.1 he))
    have hpos : 0 < words.length := List.length_pos_of_mem hk
    exact_mod_cast hpos.ne'
  refine ⟨?_, ?_, hc, ?_, ?_, ?_⟩
  · rw [htok]; exact (hrt.rangeWordFreq_perm _).eq_nil
  · rw [htok]; exact (hrt.rangeNGramFreq_perm _).eq_nil
  · rw [GenerateLabels_of_long H rt text maxLabels hlong, hc]
    rfl
  · exact fun words e he => hdiv _ words e (hrt.rangeWordFreq_perm _) he
  · exact fun ngrams e he => hdiv _ ngrams e (hrt.rangeNGramFreq_perm _) he

/-- C10 on a sample of 52 bytes without letters: the sample tokenizer returns no
word, and the result is empty and not too short. -/
theorem C10_witness :
    tokensOf sampleHelpers (sampleHelpers.cleanText noLetters) = []
      ∧ GenerateLabels sampleHelpers stableRuntime noLetters 3
          = { Labels := [], IsTooShort := false } :=
  ⟨by decide, (C10_no_tokens_gives_empty_result sampleHelpers stableRuntime noLetters 3
    stableRuntime_lawful (by decide) (by decide)).2.2.2.1⟩

/-! ## C7 -/

theorem trigramsOf_ranked_length (rt : Runtime) (hrt : rt.Lawful) (ngrams : List String) :
    (trigramsOf (rankedNGrams rt ngrams)).length
      = (ngrams.dedup.filter fun g => decide (runeLen g = 3)).length := by
  rw [trigramsOf_eq_filter]
  exact (((rankedNGrams_keys_perm rt hrt ngrams).trans
    (countFreq_keys_perm_dedup ngrams)).filter _).length_eq

theorem mem_trigramsOf_ranked (rt : Runtime) (hrt : rt.Lawful) (ngrams : List String)
    (t : String) (ht : t ∈ ngrams) (h3 : runeLen t = 3) :
    t ∈ trigramsOf (rankedNGrams rt ngrams) := by
  rw [trigramsOf_eq_filter, List.mem_filter, (rankedNGrams_keys_perm rt hrt ngrams).mem_iff,
    mem_keys_countFreq]
  exact ⟨ht, by simpa using h3⟩

theorem index_lt_of_trigram_bigram (T B : List String) (k i j : Nat) (t b : String)
    (hT : ∀ x ∈ T, runeLen x = 3) (hB : ∀ x ∈ B, runeLen x = 2)
    (hi : ((T ++ B).take k)[i]? = some t) (hj : ((T ++ B).take k)[j]? = some b)
    (h3 : runeLen t = 3) (h2 : runeLen b = 2) : i < j := by
  rw [List.getElem?_take] at hi hj
  have hi2 : (T ++ B)[i]? = some t := by
    by_cases h : i < k
    · rwa [if_pos h] at hi
    · rw [if_neg h] at hi; exact absurd hi (by simp)
  have hj2 : (T ++ B)[j]? = some b := by
    by_cases h : j < k
    · rwa [if_pos h] at hj
    · rw [if_neg h] at hj; exact absurd hj (by simp)
  have hiT : i < T.length := by
    by_contra hge
    rw [List.getElem?_append_right (by omega)] at hi2
    have := hB t (List.getElem?_mem hi2)
    omega
  have hjT : T.length ≤ j := by
    by_contra hlt
    rw [List.getElem?_append_left (by omega)] at hj2
    have := hT b (List.getElem?_mem hj2)
    omega
  omega

/-- C7: for every text and every maxLabels >= 1, on a lawful runtime, in the list
returned by extractChineseLabels every 3-character n-gram stands at a smaller index
than every 2-character n-gram, whatever their scores; a 2-character n-gram is
returned only when the number of distinct 3-character n-grams is smaller than
maxLabels, and then every 3-character n-gram of the text is returned. -/
theorem C7_trigrams_before_bigrams (H : Helpers) (rt : Runtime) (text : String)
    (maxLabels : Int) (hrt : rt.Lawful) (hm : 1 ≤ maxLabels) :
    (∀ (i j : Nat) (t b : String),
        (extractChineseLabels H rt text maxLabels)[i]? = some t →
        (extractChineseLabels H rt text maxLabels)[j]? = some b →
        runeLen t = 3 → runeLen b = 2 → i < j)
      ∧ ((∃ b ∈ extractChineseLabels H rt text maxLabels, runeLen b = 2) →
          ((((H.splitWords text true).dedup.filter fun g => decide (runeLen g = 3)).length : Int)
              < maxLabels
            ∧ ∀ t ∈ H.splitWords text true, runeLen t = 3 →
                t ∈ extractChineseLabels H rt text maxLabels)) := by
  have hres : extractChineseLabels H rt text maxLabels
      = (trigramsOf (rankedNGrams rt (H.splitWords text true))
          ++ bigramsOf (rankedNGrams rt (H.splitWords text true))).take maxLabels.toNat :=
    chineseLabelsOf_eq rt hrt _ maxLabels hm
  rw [hres]
  refine ⟨?_, ?_⟩
  · intro i j t b hi hj h3 h2
    exact index_lt_of_trigram_bigram _ _ _ i j t b (runeLen_of_mem_trigramsOf _)
      (runeLen_of_mem_bigramsOf _) hi hj h3 h2
  · rintro ⟨b, hb, h2⟩
    have hlt : (trigramsOf (rankedNGrams rt (H.splitWords text true))).length
        < maxLabels.toNat := by
      by_contra hge
      rw [List.take_append_of_le_length (by omega)] at hb
      have := runeLen_of_mem_trigramsOf _ b (List.mem_of_mem_take hb)
      omega
    refine ⟨?_, ?_⟩
    · rw [← trigramsOf_ranked_length rt hrt]
      omega
    · intro t ht h3
      rw [List.take_append_eq_append_take, List.take_of_length_le (by omega)]
      exact List.mem_append_left _ (mem_trigramsOf_ranked rt hrt _ t ht h3)

/-- C7 on a CJK sample with maxLabels = 7: the three trigrams come first, the
bigrams follow; the trigram at index 2 stands before the bigram at index 3. -/
theorem C7_witness :
    extractChineseLabels sampleHelpers reversedRuntime "人工智人工智" 7
        = ["人工智", "智人工", "工智人", "工智", "人工", "智人"]
      ∧ 2 < 3 :=
  ⟨by decide!, (C7_trigrams_before_bigrams sampleHelpers reversedRuntime "人工智人工智" 7
    reversedRuntime_lawful (by decide)).1 2 3 "工智人" "工智" (by decide!) (by decide!)
    (by decide) (by decide)⟩

/-! ## C8 -/

theorem englishScore_lt_of_count_lt (n c : Nat) (total : ℚ) (htotal : 0 < total)
    (hnc : n < c) (h2 : 2 ≤ c) (h10 : c ≤ 10) :
    englishScore n total < englishScore c total := by
  have hc : englishScore c total = (c : ℚ) / total * 1.5 := by
    simp only [englishScore, ge_iff_le]
    rw [if_pos ⟨h2, h10⟩]
  have hn : englishScore n total ≤ (n : ℚ) / total * 1.5 := by
    simp only [englishScore, ge_iff_le]
    have hq : (0 : ℚ) ≤ (n : ℚ) / total := div_nonneg (Nat.cast_nonneg n) htotal.le
    split
    · exact le_refl _
    · norm_num
      nlinarith
  have hlt : (n : ℚ) / total < (c : ℚ) / total :=
    div_lt_div_of_pos_right (by exact_mod_cast hnc) htotal
  rw [hc]
  refine lt_of_le_of_lt hn ?_
  norm_num
  nlinarith

theorem englishRanking_length (rt : Runtime) (hrt : rt.Lawful) (words : List String) :
    (englishRanking rt words).length = words.dedup.length :=
  ((englishRanking_perm rt hrt words).trans (countFreq_keys_perm_dedup words)).length_eq

theorem rankedWords_sorted_by_wordScore (rt : Runtime) (hrt : rt.Lawful) (words : List String) :
    (englishRanking rt words).Pairwise (fun a b => wordScore words b ≤ wordScore words a) := by
  unfold englishRanking
  rw [List.pairwise_map]
  refine (rankedWords_sorted rt hrt words).imp_of_mem ?_
  intro a b ha hb hab
  rw [wordScore, wordScore, ← score_of_mem_rankedWords rt hrt words a ha,
    ← score_of_mem_rankedWords rt hrt words b hb]
  exact hab

/-- C8: for every token sequence `words` that the tokenizer produces for the text
and every maxLabels >= 1, on a lawful runtime, extractEnglishLabels returns the
top-ranked words by score (count/total, times 1.5 when 2 <= count <= 10): the list
has exactly min(maxLabels, number of distinct words) entries, they are pairwise
different words of the text, their scores are non-increasing, and every word left
out scores no more than every word returned.  Consequently a word that occurs c
times with 2 <= c <= 10 while every other word occurs fewer than c times is the
first element.  The score meant is the one the scoring loop stores in the slice
entry of the word (last part). -/
theorem C8_english_top_ranked (H : Helpers) (rt : Runtime) (text : String) (maxLabels : Int)
    (words : List String) (hrt : rt.Lawful) (hm : 1 ≤ maxLabels)
    (hw : words = H.splitWords (H.toLower text) false) :
    ((extractEnglishLabels H rt text maxLabels).length : Int)
        = min maxLabels (words.dedup.length : Int)
      ∧ (extractEnglishLabels H rt text maxLabels).Nodup
      ∧ (∀ w ∈ extractEnglishLabels H rt text maxLabels, w ∈ words)
      ∧ (extractEnglishLabels H rt text maxLabels).Pairwise
          (fun a b => wordScore words b ≤ wordScore words a)
      ∧ (∀ w ∈ words, w ∉ extractEnglishLabels H rt text maxLabels →
          ∀ r ∈ extractEnglishLabels H rt text maxLabels, wordScore words w ≤ wordScore words r)
      ∧ (∀ w, 2 ≤ words.count w → words.count w ≤ 10 →
          (∀ v ∈ words, v ≠ w → words.count v < words.count w) →
          (extractEnglishLabels H rt text maxLabels).head? = some w)
      ∧ (∀ s ∈ rankedWords rt words, s.score = wordScore words s.word) := by
  have hres : extractEnglishLabels H rt text maxLabels
      = (englishRanking rt words).take maxLabels.toNat := by
    rw [hw]; exact englishLabelsOf_eq rt _ maxLabels
  have hsorted := rankedWords_sorted_by_wordScore rt hrt words
  have hnodup := englishRanking_nodup rt hrt words
  rw [hres]
  refine ⟨?_, ?_, ?_, ?_, ?_, ?_, score_of_mem_rankedWords rt hrt words⟩
  · rw [List.length_take, englishRanking_length rt hrt words]
    omega
  · exact hnodup.sublist (List.take_sublist _ _)
  · intro w hmem
    exact (mem_englishRanking rt hrt words w).1 (List.mem_of_mem_take hmem)
  · exact hsorted.sublist (List.take_sublist _ _)
  · intro w hwords hout r hr
    have hin : w ∈ englishRanking rt words := (mem_englishRanking rt hrt words w).2 hwords
    rw [← List.take_append_drop maxLabels.toNat (englishRanking rt words)] at hin hsorted
    rcases List.mem_append.1 hin with h | h
    · exact absurd h hout
    · exact (List.pairwise_append.1 hsorted).2.2 r hr w h
  · intro w h2 h10 hmax
    have hwords : w ∈ words := List.count_pos_iff.1 (by omega)
    have hin : w ∈ englishRanking rt words := (mem_englishRanking rt hrt words w).2 hwords
    have htotal : (0 : ℚ) < (words.length : ℚ) := by
      exact_mod_cast List.length_pos_of_mem hwords
    have hk : maxLabels.toNat = (maxLabels.toNat - 1) + 1 := by omega
    rcases hR : englishRanking rt words with _ | ⟨x, tl⟩
    · rw [hR] at hin; exact absurd hin (List.not_mem_nil _)
    · rw [hR] at hin hsorted
      rw [hk, List.take_succ_cons, List.head?_cons]
      by_contra hne
      have hxw : x ≠ w := fun h => hne (by rw [h])
      have hwtl : w ∈ tl := by
        rcases List.mem_cons.1 hin with h | h
        · exact absurd h.symm hxw
        · exact h
      have hle : wordScore words w ≤ wordScore words x :=
        (List.pairwise_cons.1 hsorted).1 w hwtl
      have hxwords : x ∈ words :=
        (mem_englishRanking rt hrt words x).1 (by rw [hR]; exact List.mem_cons_self _ _)
      have hlt : wordScore words x < wordScore words w :=
        englishScore_lt_of_count_lt _ _ _ htotal (hmax x hxwords hxw) h2 h10
      exact absurd hle (not_le.2 hlt)

/-- C8 on a Latin sample in which "blockchain" occurs three times and every other
word at most twice: it is the first of the five words returned. -/
theorem C8_witness :
    (extractEnglishLabels sampleHelpers stableRuntime latinSample 5).head? = some "blockchain"
      ∧ ((extractEnglishLabels sampleHelpers stableRuntime latinSample 5).length : Int)
          = min 5 (((sampleHelpers.splitWords (sampleHelpers.toLower latinSample)
              false).dedup.length : Nat) : Int) :=
  have h := C8_english_top_ranked sampleHelpers stableRuntime latinSample 5
    (sampleHelpers.splitWords (sampleHelpers.toLower latinSample) false)
    stableRuntime_lawful (by decide) rfl
  ⟨h.2.2.2.2.2.1 "blockchain" (by decide) (by decide) (by decide), h.1⟩

/-! ## C11 -/

theorem short_iff (H : Helpers) (text : String) :
    (goLen (H.cleanText text) : Int) < MinContentLength ↔ goLen (H.cleanText text) < 50 := by
  unfold MinContentLength
  omega

/-- C11: for every text and maxLabels, and every behaviour of the helpers and the
runtime, the result of GenerateLabels satisfies the LabelResult invariant: if
IsTooShort is true then Labels is empty.  IsTooShort is true exactly when
len(cleanText(text)) < 50 with len the number of UTF-8 bytes, and in that case the
result is the same for every maxLabels (and every runtime). -/
theorem C11_too_short_invariant (H : Helpers) (rt : Runtime) (text : String) (maxLabels : Int) :
    ((GenerateLabels H rt text maxLabels).IsTooShort = true →
        (GenerateLabels H rt text maxLabels).Labels = [])
      ∧ ((GenerateLabels H rt text maxLabels).IsTooShort = true ↔
          goLen (H.cleanText text) < 50)
      ∧ (goLen (H.cleanText text) < 50 →
          ∀ (rt2 : Runtime) (maxLabels2 : Int),
            GenerateLabels H rt2 text maxLabels2 = GenerateLabels H rt text maxLabels) := by
  by_cases hs : (goLen (H.cleanText text) : Int) < MinContentLength
  · have h50 := (short_iff H text).1 hs
    rw [GenerateLabels_of_short H rt text maxLabels hs]
    refine ⟨fun _ => rfl, ⟨fun _ => h50, fun _ => rfl⟩, ?_⟩
    intro _ rt2 maxLabels2
    exact GenerateLabels_of_short H rt2 text maxLabels2 hs
  · have h50 : ¬ goLen (H.cleanText text) < 50 := fun h => hs ((short_iff H text).2 h)
    rw [GenerateLabels_of_long H rt text maxLabels hs]
    refine ⟨?_, ⟨?_, ?_⟩, ?_⟩
    · intro h; exact absurd h (by simp)
    · intro h; exact absurd h (by simp)
    · intro h; exact absurd h h50
    · intro h; exact absurd h h50

/-- C11 on a text of 11 bytes: it is too short, has no labels, and maxLabels = 3 on
one runtime gives the same result as maxLabels = 0 on another. -/
theorem C11_witness :
    goLen (sampleHelpers.cleanText shortNote) < 50
      ∧ (GenerateLabels sampleHelpers stableRuntime shortNote 3).Labels = []
      ∧ GenerateLabels sampleHelpers reversedRuntime shortNote 0
          = GenerateLabels sampleHelpers stableRuntime shortNote 3 :=
  have h := C11_too_short_invariant sampleHelpers stableRuntime shortNote 3
  ⟨by decide, h.1 (h.2.1.2 (by decide)), h.2.2 (by decide) reversedRuntime 0⟩

/-! ## C13 -/

theorem englishScore_of_band (c : Nat) (total : ℚ) (h2 : 2 ≤ c) (h10 : c ≤ 10) :
    englishScore c total = (c : ℚ) / total * 1.5 := by
  simp only [englishScore, ge_iff_le]
  rw [if_pos ⟨h2, h10⟩]

theorem englishScore_of_above (c : Nat) (total : ℚ) (h10 : 10 < c) :
    englishScore c total = (c : ℚ) / total := by
  simp only [englishScore, ge_iff_le]
  rw [if_neg (fun h => by omega)]

theorem skewedWords_count :
    skewedWords.count "often" = 11 ∧ skewedWords.count "topic" = 8
      ∧ skewedWords.length = 19 := by decide

theorem englishRanking_skewedWords (rt : Runtime) (hrt : rt.Lawful) :
    englishRanking rt skewedWords = ["topic", "often"] := by
  have hu : rankedWords rt skewedWords = rankedWords stableRuntime skewedWords :=
    rankedWords_unique rt stableRuntime hrt stableRuntime_lawful skewedWords (by decide!)
  have he : englishRanking stableRuntime skewedWords = ["topic", "often"] := by decide!
  rw [← he, englishRanking, englishRanking, hu]

/-- C13: the Latin score is not monotone in the occurrence count.  For every positive
total a count of 11 scores 11/total, strictly less than the 12/total of a count of 8.
In the token sequence `skewedWords` the word "often" occurs 11 times and is the most
frequent, the word "topic" occurs 8 times, and on every lawful runtime and for every
maxLabels >= 2 extractEnglishLabels returns "topic" first and "often" after it.
Within counts 2..10, and within counts above 10, the score is strictly increasing in
the count. -/
theorem C13_score_not_monotone (H : Helpers) (rt : Runtime) (text : String) (maxLabels : Int)
    (total : ℚ) (hrt : rt.Lawful) (hm : 2 ≤ maxLabels) (htotal : 0 < total)
    (hw : H.splitWords (H.toLower text) false = skewedWords) :
    englishScore 11 total = 11 / total
      ∧ englishScore 8 total = 12 / total
      ∧ englishScore 11 total < englishScore 8 total
      ∧ skewedWords.count "often" = 11
      ∧ skewedWords.count "topic" = 8
      ∧ (∀ w ∈ skewedWords, skewedWords.count w ≤ skewedWords.count "often")
      ∧ extractEnglishLabels H rt text maxLabels = ["topic", "often"]
      ∧ (∀ a b : Nat, 2 ≤ a → a < b → b ≤ 10 → englishScore a total < englishScore b total)
      ∧ (∀ a b : Nat, 10 < a → a < b → englishScore a total < englishScore b total) := by
  have h11 : englishScore 11 total = 11 / total := by
    rw [englishScore_of_above 11 total (by decide)]
    norm_num
  have h8 : englishScore 8 total = 12 / total := by
    rw [englishScore_of_band 8 total (by decide) (by decide)]
    norm_num
    ring
  have hdiv : ∀ a b : Nat, a < b → (a : ℚ) / total < (b : ℚ) / total := fun a b hab =>
    div_lt_div_of_pos_right (by exact_mod_cast hab) htotal
  refine ⟨h11, h8, ?_, by decide, by decide, by decide, ?_, ?_, ?_⟩
  · rw [h11, h8]
    exact div_lt_div_of_pos_right (by norm_num) htotal
  · have hres : extractEnglishLabels H rt text maxLabels
        = (englishRanking rt skewedWords).take maxLabels.toNat := by
      rw [← hw]; exact englishLabelsOf_eq rt _ maxLabels
    rw [hres, englishRanking_skewedWords rt hrt]
    exact List.take_of_length_le (by simp only [List.length_cons, List.length_nil]; omega)
  · intro a b h2 hab h10
    rw [englishScore_of_band a total h2 (by omega), englishScore_of_band b total (by omega) h10]
    have := hdiv a b hab
    norm_num
    nlinarith
  · intro a b h10 hab
    rw [englishScore_of_above a total h10, englishScore_of_above b total (by omega)]
    exact hdiv a b hab

/-- C13 on a Latin sample with total = 19: "topic" (8 occurrences, score 12/19) is
returned before "often" (11 occurrences, score 11/19). -/
theorem C13_witness :
    englishScore 11 19 < englishScore 8 19
      ∧ extractEnglishLabels sampleHelpers reversedRuntime skewedText 5 = ["topic", "often"] :=
  have h := C13_score_not_monotone sampleHelpers reversedRuntime skewedText 5 19
    reversedRuntime_lawful (by decide) (by norm_num) (by decide)
  ⟨h.2.2.1, h.2.2.2.2.2.2.1⟩

/-! ## C12 -/

theorem orderedInsert_of_forall_rel {α : Type} (r : α → α → Prop) [DecidableRel r] (a : α)
    (l : List α) (h : ∀ c ∈ l, r a c) : l.orderedInsert r a = a :: l := by
  cases l with
  | nil => rfl
  | cons b l => exact List.orderedInsert_of_le r l (h b (List.mem_cons_self _ _))

theorem orderedInsert_of_not_rel {α : Type} (r : α → α → Prop) [DecidableRel r] (a b : α)
    (l : List α) (h : ¬ r a b) : (b :: l).orderedInsert r a = b :: l.orderedInsert r a := by
  simp only [List.orderedInsert, if_neg h]

theorem filter_orderedInsert {α : Type} (r : α → α → Prop) [DecidableRel r] [IsTrans α r]
    (p : α → Bool) (a : α) : ∀ l : List α, l.Sorted r →
      (l.orderedInsert r a).filter p =
        if p a = true then (l.filter p).orderedInsert r a else l.filter p := by
  intro l
  induction l with
  | nil =>
    intro _
    by_cases hp : p a = true <;> simp [hp]
  | cons b l ih =>
    intro hs
    have hs2 := List.sorted_cons.1 hs
    by_cases hab : r a b
    · rw [List.orderedInsert_of_le r l hab]
      by_cases hp : p a = true
      · have hall : ∀ c ∈ (b :: l).filter p, r a c := by
          intro c hc
          rcases List.mem_cons.1 (List.mem_filter.1 hc).1 with h | h
          · rw [h]; exact hab
          · exact IsTrans.trans a b c hab (hs2.1 c h)
        rw [if_pos hp, orderedInsert_of_forall_rel r a _ hall]
        simp [List.filter_cons, hp]
      · rw [if_neg hp]
        simp [List.filter_cons, hp]
    · rw [orderedInsert_of_not_rel r a b l hab]
      by_cases hpb : p b = true
      · have e1 : (b :: l.orderedInsert r a).filter p = b :: (l.orderedInsert r a).filter p := by
          simp [List.filter_cons, hpb]
        have e2 : (b :: l).filter p = b :: l.filter p := by simp [List.filter_cons, hpb]
        rw [e1, e2, ih hs2.2]
        by_cases hp : p a = true
        · rw [if_pos hp, if_pos hp, orderedInsert_of_not_rel r a b _ hab]
        · rw [if_neg hp, if_neg hp]
      · have e1 : (b :: l.orderedInsert r a).filter p = (l.orderedInsert r a).filter p := by
          simp [List.filter_cons, hpb]
        have e2 : (b :: l).filter p = l.filter p := by simp [List.filter_cons, hpb]
        rw [e1, e2, ih hs2.2]

theorem filter_insertionSort {α : Type} (r : α → α → Prop) [DecidableRel r] [IsTotal α r]
    [IsTrans α r] (p : α → Bool) (l : List α) :
    (l.insertionSort r).filter p = (l.filter p).insertionSort r := by
  induction l with
  | nil => rfl
  | cons a l ih =>
    rw [List.insertionSort, filter_orderedInsert r p a _ (List.sorted_insertionSort r l), ih]
    by_cases hp : p a = true
    · rw [if_pos hp]
      simp [List.filter_cons, hp]
    · rw [if_neg hp]
      simp [List.filter_cons, hp]

theorem unboost_ngram (s : scoredNGram) : (unboost s).ngram = s.ngram := by
  unfold unboost
  split <;> rfl

theorem unboost_score_of_trigram (s : scoredNGram) (h : runeLen s.ngram = 3) :
    (unboost s).score = s.score / 1.5 := by
  unfold unboost
  rw [if_pos h]

theorem unboost_of_not_trigram (s : scoredNGram) (h : ¬ runeLen s.ngram = 3) :
    unboost s = s := by
  unfold unboost
  rw [if_neg h]

theorem chineseScore_of_trigram (ngram : String) (freq : Nat) (total : ℚ)
    (h : runeLen ngram = 3) :
    chineseScore ngram freq total = chineseScoreFlat freq total * 1.5 := by
  simp only [chineseScore, chineseScoreFlat, if_pos h]
  split <;> ring

theorem chineseScore_of_not_trigram (ngram : String) (freq : Nat) (total : ℚ)
    (h : ¬ runeLen ngram = 3) :
    chineseScore ngram freq total = chineseScoreFlat freq total := by
  simp only [chineseScore, chineseScoreFlat, if_neg h]

theorem scoreNGramsFlat_eq (total : ℚ) (entries : FreqMap) :
    scoreNGramsFlat total entries = (scoreNGrams total entries).map unboost := by
  simp only [scoreNGramsFlat, scoreNGrams, List.map_map]
  apply List.map_congr_left
  intro e _
  simp only [Function.comp]
  by_cases h : runeLen e.1 = 3
  · simp only [unboost, if_pos h, chineseScore_of_trigram e.1 e.2 total h]
    congr 1
    norm_num
  · simp only [unboost, if_neg h, chineseScore_of_not_trigram e.1 e.2 total h]

theorem filter_map_ngram_stableSort_unboost (p : scoredNGram → Bool) (l : List scoredNGram)
    (hp : ∀ s, p (unboost s) = p s)
    (hr : ∀ a b, p a = true → p b = true →
      (b.score ≤ a.score ↔ (unboost b).score ≤ (unboost a).score)) :
    ((stableSortNGrams (l.map unboost)).filter p).map (fun s => s.ngram)
      = ((stableSortNGrams l).filter p).map (fun s => s.ngram) := by
  haveI : IsTotal scoredNGram (fun a b => b.score ≤ a.score) := ⟨fun a b => le_total _ _⟩
  haveI : IsTrans scoredNGram (fun a b => b.score ≤ a.score) := ⟨fun _ _ _ h1 h2 => le_trans h2 h1⟩
  have hcomp : (p ∘ unboost) = p := funext hp
  have hl : ∀ a ∈ l.filter p, ∀ b ∈ l.filter p,
      (fun a b : scoredNGram => b.score ≤ a.score) a b ↔
        (fun a b : scoredNGram => b.score ≤ a.score) (unboost a) (unboost b) :=
    fun a ha b hb => hr a b (List.mem_filter.1 ha).2 (List.mem_filter.1 hb).2
  unfold stableSortNGrams
  rw [filter_insertionSort, filter_insertionSort, List.filter_map, hcomp,
    ← List.map_insertionSort _ _ unboost _ hl, List.map_map]
  apply List.map_congr_left
  intro s _
  exact unboost_ngram s

theorem trigramsOf_stableSort_unboost (l : List scoredNGram) :
    trigramsOf (stableSortNGrams (l.map unboost)) = trigramsOf (stableSortNGrams l) := by
  unfold trigramsOf
  apply filter_map_ngram_stableSort_unboost
  · intro s; rw [unboost_ngram]
  · intro a b ha hb
    have ha3 : runeLen a.ngram = 3 := by simpa using ha
    have hb3 : runeLen b.ngram = 3 := by simpa using hb
    rw [unboost_score_of_trigram a ha3, unboost_score_of_trigram b hb3]
    exact (div_le_div_iff_of_pos_right (by norm_num)).symm

theorem bigramsOf_stableSort_unboost (l : List scoredNGram) :
    bigramsOf (stableSortNGrams (l.map unboost)) = bigramsOf (stableSortNGrams l) := by
  unfold bigramsOf
  apply filter_map_ngram_stableSort_unboost
  · intro s; rw [unboost_ngram]
  · intro a b ha hb
    have ha2 : runeLen a.ngram = 2 := by simpa using ha
    have hb2 : runeLen b.ngram = 2 := by simpa using hb
    rw [unboost_of_not_trigram a (by omega), unboost_of_not_trigram b (by omega)]

theorem collectTrigrams_of_le_one (maxLabels : Int) (hm : maxLabels ≤ 1) :
    ∀ (l : List scoredNGram) (labels seen : List String),
      collectTrigrams maxLabels l labels seen = collectTrigrams 1 l labels seen := by
  intro l
  induction l with
  | nil => intro labels seen; rfl
  | cons item rest ih =>
    intro labels seen
    have h1 : ((labels ++ [item.ngram]).length : Int) ≥ maxLabels := by
      simp only [List.length_append, List.length_singleton, Nat.cast_add, Nat.cast_one]
      omega
    have h2 : ((labels ++ [item.ngram]).length : Int) ≥ 1 := by
      simp only [List.length_append, List.length_singleton, Nat.cast_add, Nat.cast_one]
      omega
    rw [collectTrigrams_cons, collectTrigrams_cons, if_pos h1, if_pos h2, ih labels seen]

theorem fillBigrams_of_le_one (maxLabels : Int) (hm : maxLabels ≤ 1) :
    ∀ (l : List scoredNGram) (labels seen : List String),
      fillBigrams maxLabels l labels seen = fillBigrams 1 l labels seen := by
  intro l
  induction l with
  | nil => intro labels seen; rfl
  | cons item rest ih =>
    intro labels seen
    have h1 : ((labels ++ [item.ngram]).length : Int) ≥ maxLabels := by
      simp only [List.length_append, List.length_singleton, Nat.cast_add, Nat.cast_one]
      omega
    have h2 : ((labels ++ [item.ngram]).length : Int) ≥ 1 := by
      simp only [List.length_append, List.length_singleton, Nat.cast_add, Nat.cast_one]
      omega
    rw [fillBigrams_cons, fillBigrams_cons, if_pos h1, if_pos h2, ih labels seen]

theorem selectNGrams_of_le_one (maxLabels : Int) (hm : maxLabels ≤ 1) (l : List scoredNGram) :
    selectNGrams maxLabels l = selectNGrams 1 l := by
  unfold selectNGrams
  rw [collectTrigrams_of_le_one maxLabels hm]
  cases collectTrigrams 1 l [] [] with
  | returned labels => rfl
  | fellThrough labels seen => exact fillBigrams_of_le_one maxLabels hm l labels seen

theorem selectNGrams_eq_take (maxLabels : Int) (l : List scoredNGram)
    (hnd : (l.map fun s => s.ngram).Nodup) :
    selectNGrams maxLabels l = (trigramsOf l ++ bigramsOf l).take (max maxLabels 1).toNat := by
  by_cases hm : 1 ≤ maxLabels
  · have hcast : ((maxLabels.toNat : Nat) : Int) = maxLabels := Int.toNat_of_nonneg (by omega)
    have h := selectNGrams_eq maxLabels.toNat (by omega) l hnd
    rw [hcast] at h
    rw [h, max_eq_left hm]
  · rw [selectNGrams_of_le_one maxLabels (by omega), max_eq_right (by omega)]
    exact selectNGrams_eq 1 (le_refl 1) l hnd

theorem stableSortNGrams_perm (l : List scoredNGram) : (stableSortNGrams l).Perm l :=
  List.perm_insertionSort _ l

theorem scoreNGrams_keys (total : ℚ) (entries : FreqMap) :
    (scoreNGrams total entries).map (fun s => s.ngram) = entries.map Prod.fst := by
  simp [scoreNGrams, Function.comp_def]

theorem stableSort_scored_keys_nodup (total : ℚ) (entries : FreqMap)
    (hnd : (entries.map Prod.fst).Nodup) :
    ((stableSortNGrams (scoreNGrams total entries)).map fun s => s.ngram).Nodup := by
  rw [((stableSortNGrams_perm _).map _).nodup_iff, scoreNGrams_keys]
  exact hnd

theorem stableSort_unboost_keys_nodup (total : ℚ) (entries : FreqMap)
    (hnd : (entries.map Prod.fst).Nodup) :
    ((stableSortNGrams ((scoreNGrams total entries).map unboost)).map fun s => s.ngram).Nodup := by
  rw [((stableSortNGrams_perm _).map _).nodup_iff, List.map_map]
  have e : ((fun s : scoredNGram => s.ngram) ∘ unboost) = fun s => s.ngram :=
    funext unboost_ngram
  rw [e, scoreNGrams_keys]
  exact hnd

/-- C12: the CJK length boost has no effect on the output.  For every n-gram
sequence that the tokenizer returns and every maxLabels, when `range` visits each
entry of the map once in some fixed order and the sort is stable, extractChineseLabels
returns the same list as the version whose lengthBoost is 1.0 for every n-gram
(score = tf, times 1.5 when 2 <= count <= 8), scores being exact rationals. -/
theorem C12_length_boost_immaterial (H : Helpers) (rt : Runtime) (text : String)
    (maxLabels : Int) (hrange : ∀ m, (rt.rangeNGramFreq m).Perm m)
    (hsort : rt.sortNGrams = stableSortNGrams) :
    extractChineseLabels H rt text maxLabels = extractChineseLabelsFlat H rt text maxLabels := by
  have hkeys : ((rt.rangeNGramFreq (countFreq (H.splitWords text true))).map Prod.fst).Nodup :=
    ((hrange _).map _).nodup_iff.2 (countFreq_keys_nodup _)
  simp only [extractChineseLabels, chineseLabelsOf, extractChineseLabelsFlat, rankedNGrams,
    rankedNGramsFlat, hsort, scoreNGramsFlat_eq]
  rw [selectNGrams_eq_take maxLabels _ (stableSort_scored_keys_nodup _ _ hkeys),
    selectNGrams_eq_take maxLabels _ (stableSort_unboost_keys_nodup _ _ hkeys),
    trigramsOf_stableSort_unboost, bigramsOf_stableSort_unboost]

/-- C12 on a CJK sample: with and without the length boost the five labels are the
same, although the two sorted slices differ. -/
theorem C12_witness :
    extractChineseLabels sampleHelpers stableRuntime cjkRepeated 5
        = extractChineseLabelsFlat sampleHelpers stableRuntime cjkRepeated 5
      ∧ extractChineseLabelsFlat sampleHelpers stableRuntime cjkRepeated 5
          = ["好的好", "的好的", "人工智", "工智能", "好的人"]
      ∧ rankedNGrams stableRuntime (sampleHelpers.splitWords cjkRepeated true)
          ≠ rankedNGramsFlat stableRuntime (sampleHelpers.splitWords cjkRepeated true) :=
  ⟨C12_length_boost_immaterial sampleHelpers stableRuntime cjkRepeated 5
    (fun m => List.Perm.refl m) rfl, by decide!, by decide!⟩

end Label
